import Mathlib

/-!
Verification of the operational-transformation core of
shiv248/operational-transformation-go.

Shallow embedding conventions:
* Go strings are modelled as `List Char`; all counts are Unicode codepoint
  counts, and `charCount` is list length (Go: `utf8.RuneCountInString`).
* `uint64` / `int` counters are modelled as `Nat`: every arithmetic update the
  code performs on them is an addition of a nonnegative quantity, so no
  wrap-around is observable at the sizes the claims quantify over.
* Go's fallible functions returning `(T, error)` are modelled as `Option T`
  (with `none` for a non-nil error); `Apply` additionally gets a pair-returning
  variant mirroring Go's `return "", ErrIncompatibleLengths`.
* Go's byte-wise lexicographic string comparison `<` agrees with codepoint-wise
  lexicographic comparison (UTF-8 preserves codepoint order), which `lexLt`
  implements on `List Char`.
-/

namespace OT

/-- The single error value `ErrIncompatibleLengths` plus the invalid wire
element error of `UnmarshalJSON`. -/
inductive OTError where
  | incompatibleLengths : OTError
  | invalidOperationType : OTError
deriving DecidableEq, Repr

/-- Go `Operation` interface with its three concrete variants
`Retain{N}`, `Delete{N}`, `Insert{Text}`. -/
inductive Operation where
  | Retain (N : Nat)
  | Delete (N : Nat)
  | Insert (Text : List Char)
deriving DecidableEq, Repr

/-- Go `charCount`: number of Unicode codepoints of a string. -/
def charCount (s : List Char) : Nat := s.length

/-- Input length consumed by one operation (`Retain.N + Delete.N` summand). -/
def opBaseLen : Operation → Nat
  | .Retain n => n
  | .Delete n => n
  | .Insert _ => 0

/-- Output length produced by one operation (`Retain.N + len(Insert.Text)`). -/
def opTargetLen : Operation → Nat
  | .Retain n => n
  | .Delete _ => 0
  | .Insert s => charCount s

/-- Sum of consumed lengths of a list of operations. -/
def opsBaseLen (l : List Operation) : Nat := (l.map opBaseLen).sum

/-- Sum of produced lengths of a list of operations. -/
def opsTargetLen (l : List Operation) : Nat := (l.map opTargetLen).sum

/-- Go `OperationSeq`: operation list plus the two derived counters the code
maintains incrementally. -/
structure OperationSeq where
  ops : List Operation
  baseLen : Nat
  targetLen : Nat
deriving DecidableEq, Repr

/-- Go `NewOperationSeq()`. (`WithCapacity` differs only in allocation.) -/
def NewOperationSeq : OperationSeq := ⟨[], 0, 0⟩

/-- Go `IsNoop`: empty list or exactly one `Retain`. -/
def OperationSeq.IsNoop (o : OperationSeq) : Bool :=
  match o.ops with
  | [] => true
  | [Operation.Retain _] => true
  | _ => false

/-!
The builder methods `Retain`, `Delete`, `Insert` inspect the *last* element(s)
of `o.ops`.  We model this by pattern-matching on `o.ops.reverse`; the merge
helpers below receive and return the reversed list, so their first pattern is
the last stored operation, exactly the element the Go code looks at.
-/

/-- Merge step of Go `(*OperationSeq).Retain` on the reversed list: merge into
a trailing `Retain` if present, else append. -/
def retainMerge (n : Nat) : List Operation → List Operation
  | Operation.Retain m :: rest => Operation.Retain (m + n) :: rest
  | r => Operation.Retain n :: r

/-- Go `(*OperationSeq).Retain`. -/
def OperationSeq.Retain (o : OperationSeq) (n : Nat) : OperationSeq :=
  if n = 0 then o
  else
    { ops := (retainMerge n o.ops.reverse).reverse
      baseLen := o.baseLen + n
      targetLen := o.targetLen + n }

/-- Merge step of Go `(*OperationSeq).Delete` on the reversed list: merge into
a trailing `Delete` if present, else append. -/
def deleteMerge (n : Nat) : List Operation → List Operation
  | Operation.Delete m :: rest => Operation.Delete (m + n) :: rest
  | r => Operation.Delete n :: r

/-- Go `(*OperationSeq).Delete`. -/
def OperationSeq.Delete (o : OperationSeq) (n : Nat) : OperationSeq :=
  if n = 0 then o
  else
    { ops := (deleteMerge n o.ops.reverse).reverse
      baseLen := o.baseLen + n
      targetLen := o.targetLen }

/-- Merge step of Go `(*OperationSeq).Insert` on the reversed list, in the Go
branch order: merge with a trailing `Insert`; else merge with an `Insert`
sitting right before a trailing `Delete`; else splice the new `Insert` in
front of a trailing `Delete`; else append. -/
def insertMerge (s : List Char) : List Operation → List Operation
  | Operation.Insert t :: rest => Operation.Insert (t ++ s) :: rest
  | Operation.Delete d :: Operation.Insert t :: rest =>
      Operation.Delete d :: Operation.Insert (t ++ s) :: rest
  | Operation.Delete d :: rest => Operation.Delete d :: Operation.Insert s :: rest
  | r => Operation.Insert s :: r

/-- Go `(*OperationSeq).Insert`. -/
def OperationSeq.Insert (o : OperationSeq) (s : List Char) : OperationSeq :=
  if s = [] then o
  else
    { ops := (insertMerge s o.ops.reverse).reverse
      baseLen := o.baseLen
      targetLen := o.targetLen + charCount s }

/-- Go internal helper `(*OperationSeq).add`. -/
def OperationSeq.add (o : OperationSeq) (op : Operation) : OperationSeq :=
  match op with
  | .Retain n => o.Retain n
  | .Delete n => o.Delete n
  | .Insert s => o.Insert s

/-- Feeding a list of operations one by one through the builder (`add`). -/
def addAll (o : OperationSeq) (l : List Operation) : OperationSeq :=
  l.foldl OperationSeq.add o

/-- Sequences reachable through the public construction methods, starting from
`NewOperationSeq()`.  This is every `OperationSeq` the package can hand out:
the fields are unexported and `UnmarshalJSON`, `Compose`, `Transform`, and
`Invert` all build their results through these methods. -/
inductive Built : OperationSeq → Prop where
  | empty : Built NewOperationSeq
  | retain (o : OperationSeq) (n : Nat) : Built o → Built (o.Retain n)
  | delete (o : OperationSeq) (n : Nat) : Built o → Built (o.Delete n)
  | insert (o : OperationSeq) (s : List Char) : Built o → Built (o.Insert s)

/-! ## Apply and Invert (`apply.go`) -/

/-- The walk of Go `Apply` after the length check: `Retain n` copies the next
`n` codepoints (the Go loop guard `idx < len(runes)` clamps, as `take` does),
`Delete n` advances the cursor without copying, `Insert` appends its text.  The
cursor is modelled by passing the not-yet-consumed suffix of the input. -/
def applyOps : List Operation → List Char → List Char
  | [], _ => []
  | Operation.Retain n :: rest, cs => cs.take n ++ applyOps rest (cs.drop n)
  | Operation.Delete n :: rest, cs => applyOps rest (cs.drop n)
  | Operation.Insert t :: rest, cs => t ++ applyOps rest cs

/-- Go `(*OperationSeq).Apply`, kept as the literal Go result pair: the built
string together with the error value (Go returns `("", ErrIncompatibleLengths)`
on a length mismatch). -/
def OperationSeq.applyPair (o : OperationSeq) (s : List Char) :
    List Char × Option OTError :=
  if charCount s ≠ o.baseLen then ([], some .incompatibleLengths)
  else (applyOps o.ops s, none)

/-- `Apply` as an `Option`: `some` of the output on success, `none` on the
length-mismatch error. -/
def OperationSeq.Apply (o : OperationSeq) (s : List Char) : Option (List Char) :=
  match o.applyPair s with
  | (r, none) => some r
  | (_, some _) => none

/-- The walk of Go `Invert`: `Retain n` is re-emitted and the cursor advances,
`Insert t` becomes `Delete (charCount t)`, `Delete n` becomes an `Insert` of
the next `n` codepoints of the original input.  Go slices
`runes[idx : idx+n]`, which panics if the input is shorter than `baseLen`;
`take` clamps instead, and every theorem below assumes the documented
precondition `baseLen = len(s)` under which no clamping happens. -/
def invertGo : List Operation → List Char → OperationSeq → OperationSeq
  | [], _, inverse => inverse
  | Operation.Retain n :: rest, cs, inverse =>
      invertGo rest (cs.drop n) (inverse.Retain n)
  | Operation.Insert t :: rest, cs, inverse =>
      invertGo rest cs (inverse.Delete (charCount t))
  | Operation.Delete n :: rest, cs, inverse =>
      invertGo rest (cs.drop n) (inverse.Insert (cs.take n))

/-- Go `(*OperationSeq).Invert`. -/
def OperationSeq.Invert (o : OperationSeq) (s : List Char) : OperationSeq :=
  invertGo o.ops s NewOperationSeq

/-! ## Compose

The Go loop keeps a current operation per side (`op1`, `op2`), either freshly
pulled from the iterator (`nil` when exhausted) or a synthetically shrunk
remainder.  We model the pair (current operation, iterator rest) as a single
list whose head is the current operation; `nil` corresponds to the empty list.
The Go branch order is preserved: Delete-from-A first, then Insert-from-B,
then the one-side-exhausted error, then the four Retain/Insert × Retain/Delete
pairings; the trailing `return nil, nil, ErrIncompatibleLengths` of the Go
function is unreachable because those cases are exhaustive. -/

/-- The main loop of Go `(*OperationSeq).Compose`, with `result` the
accumulator the Go code emits into through the builder methods. -/
def composeGoLoop :
    List Operation → List Operation → OperationSeq → Option OperationSeq
  | [], [], result => some result
  | Operation.Delete n :: t1, l2, result => composeGoLoop t1 l2 (result.Delete n)
  | l1, Operation.Insert s :: t2, result => composeGoLoop l1 t2 (result.Insert s)
  | [], _ :: _, _ => none
  | _ :: _, [], _ => none
  | Operation.Retain n1 :: t1, Operation.Retain n2 :: t2, result =>
      if n1 < n2 then
        composeGoLoop t1 (Operation.Retain (n2 - n1) :: t2) (result.Retain n1)
      else if n1 = n2 then
        composeGoLoop t1 t2 (result.Retain n1)
      else
        composeGoLoop (Operation.Retain (n1 - n2) :: t1) t2 (result.Retain n2)
  | Operation.Insert s :: t1, Operation.Delete n :: t2, result =>
      if charCount s < n then
        composeGoLoop t1 (Operation.Delete (n - charCount s) :: t2) result
      else if charCount s = n then
        composeGoLoop t1 t2 result
      else
        composeGoLoop (Operation.Insert (s.drop n) :: t1) t2 result
  | Operation.Insert s :: t1, Operation.Retain n :: t2, result =>
      if charCount s < n then
        composeGoLoop t1 (Operation.Retain (n - charCount s) :: t2) (result.Insert s)
      else if charCount s = n then
        composeGoLoop t1 t2 (result.Insert s)
      else
        composeGoLoop (Operation.Insert (s.drop n) :: t1) t2 (result.Insert (s.take n))
  | Operation.Retain n1 :: t1, Operation.Delete n2 :: t2, result =>
      if n1 < n2 then
        composeGoLoop t1 (Operation.Delete (n2 - n1) :: t2) (result.Delete n1)
      else if n1 = n2 then
        composeGoLoop t1 t2 (result.Delete n2)
      else
        composeGoLoop (Operation.Retain (n1 - n2) :: t1) t2 (result.Delete n2)
termination_by l1 l2 _ => l1.length + l2.length
decreasing_by all_goals simp [List.length_cons] <;> omega

/-- Go `(*OperationSeq).Compose`. -/
def OperationSeq.Compose (a b : OperationSeq) : Option OperationSeq :=
  if a.targetLen ≠ b.baseLen then none
  else composeGoLoop a.ops b.ops NewOperationSeq

/-! ## Transform -/

/-- Go string comparison `<` on the codepoint level: lexicographic with the
shorter prefix smaller.  Agrees with Go's byte-wise comparison because UTF-8
preserves codepoint order. -/
def lexLt : List Char → List Char → Bool
  | [], [] => false
  | [], _ :: _ => true
  | _ :: _, [] => false
  | a :: as, b :: bs => a < b || (a = b && lexLt as bs)

/-- The main loop of Go `(*OperationSeq).Transform`; same modelling of the
cursor state as `composeGoLoop`.  Branch order as in Go: Insert vs Insert with
the lexicographic tie-break, Insert from A, Insert from B, the
one-side-exhausted error, then the Retain/Delete pairings; the trailing
unreachable error return is dropped since the match is exhaustive. -/
def transformGoLoop :
    List Operation → List Operation → OperationSeq → OperationSeq →
      Option (OperationSeq × OperationSeq)
  | [], [], aPrime, bPrime => some (aPrime, bPrime)
  | Operation.Insert s1 :: t1, Operation.Insert s2 :: t2, aPrime, bPrime =>
      if lexLt s1 s2 then
        transformGoLoop t1 (Operation.Insert s2 :: t2)
          (aPrime.Insert s1) (bPrime.Retain (charCount s1))
      else if s1 = s2 then
        transformGoLoop t1 t2
          ((aPrime.Insert s1).Retain (charCount s1))
          ((bPrime.Insert s2).Retain (charCount s2))
      else
        transformGoLoop (Operation.Insert s1 :: t1) t2
          (aPrime.Retain (charCount s2)) (bPrime.Insert s2)
  | Operation.Insert s :: t1, l2, aPrime, bPrime =>
      transformGoLoop t1 l2 (aPrime.Insert s) (bPrime.Retain (charCount s))
  | l1, Operation.Insert s :: t2, aPrime, bPrime =>
      transformGoLoop l1 t2 (aPrime.Retain (charCount s)) (bPrime.Insert s)
  | [], _ :: _, _, _ => none
  | _ :: _, [], _, _ => none
  | Operation.Retain n1 :: t1, Operation.Retain n2 :: t2, aPrime, bPrime =>
      if n1 < n2 then
        transformGoLoop t1 (Operation.Retain (n2 - n1) :: t2)
          (aPrime.Retain n1) (bPrime.Retain n1)
      else if n1 = n2 then
        transformGoLoop t1 t2 (aPrime.Retain n1) (bPrime.Retain n1)
      else
        transformGoLoop (Operation.Retain (n1 - n2) :: t1) t2
          (aPrime.Retain n2) (bPrime.Retain n2)
  | Operation.Delete n1 :: t1, Operation.Delete n2 :: t2, aPrime, bPrime =>
      if n1 < n2 then
        transformGoLoop t1 (Operation.Delete (n2 - n1) :: t2) aPrime bPrime
      else if n1 = n2 then
        transformGoLoop t1 t2 aPrime bPrime
      else
        transformGoLoop (Operation.Delete (n1 - n2) :: t1) t2 aPrime bPrime
  | Operation.Delete n1 :: t1, Operation.Retain n2 :: t2, aPrime, bPrime =>
      if n1 < n2 then
        transformGoLoop t1 (Operation.Retain (n2 - n1) :: t2)
          (aPrime.Delete n1) bPrime
      else if n1 = n2 then
        transformGoLoop t1 t2 (aPrime.Delete n1) bPrime
      else
        transformGoLoop (Operation.Delete (n1 - n2) :: t1) t2
          (aPrime.Delete n2) bPrime
  | Operation.Retain n1 :: t1, Operation.Delete n2 :: t2, aPrime, bPrime =>
      if n1 < n2 then
        transformGoLoop t1 (Operation.Delete (n2 - n1) :: t2)
          aPrime (bPrime.Delete n1)
      else if n1 = n2 then
        transformGoLoop t1 t2 aPrime (bPrime.Delete n1)
      else
        transformGoLoop (Operation.Retain (n1 - n2) :: t1) t2
          aPrime (bPrime.Delete n2)
termination_by l1 l2 _ _ => l1.length + l2.length
decreasing_by all_goals simp [List.length_cons] <;> omega

/-- Go `(*OperationSeq).Transform`. -/
def OperationSeq.Transform (a b : OperationSeq) :
    Option (OperationSeq × OperationSeq) :=
  if a.baseLen ≠ b.baseLen then none
  else transformGoLoop a.ops b.ops NewOperationSeq NewOperationSeq

/-! ## Wire codec

The JSON array is modelled at the value level: every element is either a
number or a string (Go's `UnmarshalJSON` rejects anything else).  Numbers are
exact integers here; the `float64` step of `encoding/json` is below the
resolution of this model. -/

/-- One element of the compact wire array. -/
inductive WireItem where
  | num (i : Int)
  | str (s : List Char)
deriving DecidableEq, Repr

/-- Element translation of Go `MarshalJSON`: `Retain n ↦ n`,
`Delete n ↦ -n`, `Insert s ↦ s`. -/
def encodeOp : Operation → WireItem
  | .Retain n => .num n
  | .Delete n => .num (-(n : Int))
  | .Insert s => .str s

/-- Go `(*OperationSeq).MarshalJSON` as a list of wire items. -/
def OperationSeq.MarshalJSON (o : OperationSeq) : List WireItem :=
  o.ops.map encodeOp

/-- One step of Go `UnmarshalJSON`: strings go through `Insert`, non-negative
numbers through `Retain`, negative numbers through `Delete`. -/
def decodeStep (o : OperationSeq) : WireItem → OperationSeq
  | .str s => o.Insert s
  | .num i => if 0 ≤ i then o.Retain i.toNat else o.Delete (-i).toNat

/-- Go `(*OperationSeq).UnmarshalJSON`: rebuilds the sequence from scratch
through the normalizing construction methods. -/
def UnmarshalJSON (items : List WireItem) : OperationSeq :=
  items.foldl decodeStep NewOperationSeq

/-! ## Pure mirrors of the three loops

For the proofs we factor each accumulator loop into a pure recursion that
returns the emitted operations as a plain list (in emission order); the
`*_eq` refinement lemmas below show the Go loop equals feeding that list
through the builder. -/

/-- Emission list of `invertGo`. -/
def invertOps : List Operation → List Char → List Operation
  | [], _ => []
  | Operation.Retain n :: rest, cs =>
      Operation.Retain n :: invertOps rest (cs.drop n)
  | Operation.Insert t :: rest, cs =>
      Operation.Delete (charCount t) :: invertOps rest cs
  | Operation.Delete n :: rest, cs =>
      Operation.Insert (cs.take n) :: invertOps rest (cs.drop n)

/-- Emission list of `composeGoLoop` (same branch structure). -/
def composeOps : List Operation → List Operation → Option (List Operation)
  | [], [] => some []
  | Operation.Delete n :: t1, l2 =>
      (composeOps t1 l2).map (Operation.Delete n :: ·)
  | l1, Operation.Insert s :: t2 =>
      (composeOps l1 t2).map (Operation.Insert s :: ·)
  | [], _ :: _ => none
  | _ :: _, [] => none
  | Operation.Retain n1 :: t1, Operation.Retain n2 :: t2 =>
      if n1 < n2 then
        (composeOps t1 (Operation.Retain (n2 - n1) :: t2)).map (Operation.Retain n1 :: ·)
      else if n1 = n2 then
        (composeOps t1 t2).map (Operation.Retain n1 :: ·)
      else
        (composeOps (Operation.Retain (n1 - n2) :: t1) t2).map (Operation.Retain n2 :: ·)
  | Operation.Insert s :: t1, Operation.Delete n :: t2 =>
      if charCount s < n then
        composeOps t1 (Operation.Delete (n - charCount s) :: t2)
      else if charCount s = n then
        composeOps t1 t2
      else
        composeOps (Operation.Insert (s.drop n) :: t1) t2
  | Operation.Insert s :: t1, Operation.Retain n :: t2 =>
      if charCount s < n then
        (composeOps t1 (Operation.Retain (n - charCount s) :: t2)).map (Operation.Insert s :: ·)
      else if charCount s = n then
        (composeOps t1 t2).map (Operation.Insert s :: ·)
      else
        (composeOps (Operation.Insert (s.drop n) :: t1) t2).map (Operation.Insert (s.take n) :: ·)
  | Operation.Retain n1 :: t1, Operation.Delete n2 :: t2 =>
      if n1 < n2 then
        (composeOps t1 (Operation.Delete (n2 - n1) :: t2)).map (Operation.Delete n1 :: ·)
      else if n1 = n2 then
        (composeOps t1 t2).map (Operation.Delete n2 :: ·)
      else
        (composeOps (Operation.Retain (n1 - n2) :: t1) t2).map (Operation.Delete n2 :: ·)
termination_by l1 l2 => l1.length + l2.length
decreasing_by all_goals simp [List.length_cons] <;> omega

/-- Emission pair of `transformGoLoop` (same branch structure). -/
def transformOps :
    List Operation → List Operation → Option (List Operation × List Operation)
  | [], [] => some ([], [])
  | Operation.Insert s1 :: t1, Operation.Insert s2 :: t2 =>
      if lexLt s1 s2 then
        (transformOps t1 (Operation.Insert s2 :: t2)).map
          (fun p => (Operation.Insert s1 :: p.1, Operation.Retain (charCount s1) :: p.2))
      else if s1 = s2 then
        (transformOps t1 t2).map
          (fun p => (Operation.Insert s1 :: Operation.Retain (charCount s1) :: p.1,
                     Operation.Insert s2 :: Operation.Retain (charCount s2) :: p.2))
      else
        (transformOps (Operation.Insert s1 :: t1) t2).map
          (fun p => (Operation.Retain (charCount s2) :: p.1, Operation.Insert s2 :: p.2))
  | Operation.Insert s :: t1, l2 =>
      (transformOps t1 l2).map
        (fun p => (Operation.Insert s :: p.1, Operation.Retain (charCount s) :: p.2))
  | l1, Operation.Insert s :: t2 =>
      (transformOps l1 t2).map
        (fun p => (Operation.Retain (charCount s) :: p.1, Operation.Insert s :: p.2))
  | [], _ :: _ => none
  | _ :: _, [] => none
  | Operation.Retain n1 :: t1, Operation.Retain n2 :: t2 =>
      if n1 < n2 then
        (transformOps t1 (Operation.Retain (n2 - n1) :: t2)).map
          (fun p => (Operation.Retain n1 :: p.1, Operation.Retain n1 :: p.2))
      else if n1 = n2 then
        (transformOps t1 t2).map
          (fun p => (Operation.Retain n1 :: p.1, Operation.Retain n1 :: p.2))
      else
        (transformOps (Operation.Retain (n1 - n2) :: t1) t2).map
          (fun p => (Operation.Retain n2 :: p.1, Operation.Retain n2 :: p.2))
  | Operation.Delete n1 :: t1, Operation.Delete n2 :: t2 =>
      if n1 < n2 then
        transformOps t1 (Operation.Delete (n2 - n1) :: t2)
      else if n1 = n2 then
        transformOps t1 t2
      else
        transformOps (Operation.Delete (n1 - n2) :: t1) t2
  | Operation.Delete n1 :: t1, Operation.Retain n2 :: t2 =>
      if n1 < n2 then
        (transformOps t1 (Operation.Retain (n2 - n1) :: t2)).map
          (fun p => (Operation.Delete n1 :: p.1, p.2))
      else if n1 = n2 then
        (transformOps t1 t2).map (fun p => (Operation.Delete n1 :: p.1, p.2))
      else
        (transformOps (Operation.Delete (n1 - n2) :: t1) t2).map
          (fun p => (Operation.Delete n2 :: p.1, p.2))
  | Operation.Retain n1 :: t1, Operation.Delete n2 :: t2 =>
      if n1 < n2 then
        (transformOps t1 (Operation.Delete (n2 - n1) :: t2)).map
          (fun p => (p.1, Operation.Delete n1 :: p.2))
      else if n1 = n2 then
        (transformOps t1 t2).map (fun p => (p.1, Operation.Delete n1 :: p.2))
      else
        (transformOps (Operation.Retain (n1 - n2) :: t1) t2).map
          (fun p => (p.1, Operation.Delete n2 :: p.2))
termination_by l1 l2 => l1.length + l2.length
decreasing_by all_goals simp [List.length_cons] <;> omega

/-! ## Specification-side notions used by the proofs -/

/-- A materialized operation is never trivial: no zero-count `Retain`/`Delete`,
no empty `Insert`. -/
def opOK : Operation → Bool
  | .Retain n => n != 0
  | .Delete n => n != 0
  | .Insert s => !s.isEmpty

/-- Allowed adjacency `a` then `b` in a canonical list: never two operations
of the same variant, and never an `Insert` right after a `Delete`. -/
def pairOK : Operation → Operation → Bool
  | .Retain _, .Retain _ => false
  | .Delete _, .Delete _ => false
  | .Insert _, .Insert _ => false
  | .Delete _, .Insert _ => false
  | _, _ => true

/-- Every element of the list is non-trivial. -/
def opsWF (l : List Operation) : Prop := ∀ op ∈ l, opOK op = true

/-- Canonicity checker on the *reversed* operation list (most recent
operation first, as the builder sees it): every operation is non-trivial and
every adjacent pair `b` then `a` (in reversed order, so `b` before `a` in the
stored list is `a :: b :: _` here) satisfies `pairOK b a`. -/
def canonRev : List Operation → Bool
  | [] => true
  | [a] => opOK a
  | a :: b :: r => opOK a && pairOK b a && canonRev (b :: r)

/-- The stored counters agree with the sums over the operation list (the spec
calls them "derived scalars"). -/
def Coherent (o : OperationSeq) : Prop :=
  o.baseLen = opsBaseLen o.ops ∧ o.targetLen = opsTargetLen o.ops

/-- Same base length, same target length, same action on every input. -/
def equivOps (l l' : List Operation) : Prop :=
  opsBaseLen l = opsBaseLen l' ∧ opsTargetLen l = opsTargetLen l' ∧
    ∀ cs : List Char, applyOps l cs = applyOps l' cs


/-! ## Refinement: Go loops = pure emission + builder -/

theorem addAll_nil (o : OperationSeq) : addAll o [] = o := rfl

theorem addAll_cons (o : OperationSeq) (op : Operation) (l : List Operation) :
    addAll o (op :: l) = addAll (o.add op) l := rfl

theorem add_Retain (o : OperationSeq) (n : Nat) :
    o.add (Operation.Retain n) = o.Retain n := rfl

theorem add_Delete (o : OperationSeq) (n : Nat) :
    o.add (Operation.Delete n) = o.Delete n := rfl

theorem add_Insert (o : OperationSeq) (s : List Char) :
    o.add (Operation.Insert s) = o.Insert s := rfl

/-- `invertGo` feeds exactly the `invertOps` emission through the builder. -/
theorem invertGo_eq (ops : List Operation) (cs : List Char) (acc : OperationSeq) :
    invertGo ops cs acc = addAll acc (invertOps ops cs) := by
  induction ops generalizing cs acc with
  | nil => rfl
  | cons op rest ih =>
    cases op <;>
      simp [invertGo, invertOps, addAll_cons, add_Retain, add_Delete, add_Insert, ih]

/-- `composeGoLoop` feeds exactly the `composeOps` emission through the
builder. -/
theorem composeGoLoop_eq (l1 l2 : List Operation) (acc : OperationSeq) :
    composeGoLoop l1 l2 acc = (composeOps l1 l2).map (addAll acc) := by
  induction l1, l2, acc using composeGoLoop.induct with
  | case1 acc => simp [composeGoLoop, composeOps, addAll_nil]
  | case2 n t1 l2 acc ih =>
    simp only [composeGoLoop, composeOps, ih, Option.map_map]
    cases composeOps t1 l2 <;> simp [addAll_cons, add_Delete]
  | case3 l1 s t2 acc hne ih =>
    rcases l1 with _ | ⟨op, t1⟩
    · simp only [composeGoLoop, composeOps, ih, Option.map_map]
      cases composeOps ([] : List Operation) t2 <;> simp [addAll_cons, add_Insert]
    · cases op with
      | Delete n => exact absurd rfl (hne n t1)
      | Retain n =>
        simp only [composeGoLoop, composeOps, ih, Option.map_map]
        cases composeOps (Operation.Retain n :: t1) t2 <;>
          simp [addAll_cons, add_Insert]
      | Insert s' =>
        simp only [composeGoLoop, composeOps, ih, Option.map_map]
        cases composeOps (Operation.Insert s' :: t1) t2 <;>
          simp [addAll_cons, add_Insert]
  | case4 head tail acc hne =>
    rcases head with n | n | s
    · simp [composeGoLoop, composeOps]
    · simp [composeGoLoop, composeOps]
    · exact absurd rfl (hne s)
  | case5 head tail acc hne =>
    rcases head with n | n | s
    · simp [composeGoLoop, composeOps]
    · exact absurd rfl (hne n)
    · simp [composeGoLoop, composeOps]
  | case6 n1 t1 n2 t2 acc h ih =>
    simp only [composeGoLoop, composeOps, if_pos h, ih, Option.map_map]
    cases composeOps t1 (Operation.Retain (n2 - n1) :: t2) <;>
      simp [addAll_cons, add_Retain]
  | case7 t1 n2 t2 acc h ih =>
    simp only [composeGoLoop, composeOps, if_neg h, if_pos rfl, ih, Option.map_map]
    cases composeOps t1 t2 <;> simp [addAll_cons, add_Retain]
  | case8 n1 t1 n2 t2 acc h h' ih =>
    simp only [composeGoLoop, composeOps, if_neg h, if_neg h', ih, Option.map_map]
    cases composeOps (Operation.Retain (n1 - n2) :: t1) t2 <;>
      simp [addAll_cons, add_Retain]
  | case9 s t1 n t2 acc h ih =>
    simp only [composeGoLoop, composeOps, if_pos h, ih]
  | case10 s t1 t2 acc h ih =>
    simp [composeGoLoop, composeOps, h, ih]
  | case11 s t1 n t2 acc h h' ih =>
    simp only [composeGoLoop, composeOps, if_neg h, if_neg h', ih]
  | case12 s t1 n t2 acc h ih =>
    simp only [composeGoLoop, composeOps, if_pos h, ih, Option.map_map]
    cases composeOps t1 (Operation.Retain (n - charCount s) :: t2) <;>
      simp [addAll_cons, add_Insert]
  | case13 s t1 t2 acc h ih =>
    simp only [composeGoLoop, composeOps, if_neg h, if_pos rfl, ih, Option.map_map]
    cases composeOps t1 t2 <;> simp [addAll_cons, add_Insert]
  | case14 s t1 n t2 acc h h' ih =>
    simp only [composeGoLoop, composeOps, if_neg h, if_neg h', ih, Option.map_map]
    cases composeOps (Operation.Insert (s.drop n) :: t1) t2 <;>
      simp [addAll_cons, add_Insert]
  | case15 n1 t1 n2 t2 acc h ih =>
    simp only [composeGoLoop, composeOps, if_pos h, ih, Option.map_map]
    cases composeOps t1 (Operation.Delete (n2 - n1) :: t2) <;>
      simp [addAll_cons, add_Delete]
  | case16 t1 n2 t2 acc h ih =>
    simp only [composeGoLoop, composeOps, if_neg h, if_pos rfl, ih, Option.map_map]
    cases composeOps t1 t2 <;> simp [addAll_cons, add_Delete]
  | case17 n1 t1 n2 t2 acc h h' ih =>
    simp only [composeGoLoop, composeOps, if_neg h, if_neg h', ih, Option.map_map]
    cases composeOps (Operation.Retain (n1 - n2) :: t1) t2 <;>
      simp [addAll_cons, add_Delete]

/-- `transformGoLoop` feeds exactly the `transformOps` emissions through the
builder. -/
theorem transformGoLoop_eq (l1 l2 : List Operation) (a b : OperationSeq) :
    transformGoLoop l1 l2 a b =
      (transformOps l1 l2).map (fun p => (addAll a p.1, addAll b p.2)) := by
  induction l1, l2, a, b using transformGoLoop.induct with
  | case1 a b => simp [transformGoLoop, transformOps, addAll_nil]
  | case2 s1 t1 s2 t2 a b h ih =>
    simp only [transformGoLoop, transformOps, if_pos h, ih, Option.map_map]
    cases transformOps t1 (Operation.Insert s2 :: t2) <;>
      simp [addAll_cons, add_Insert, add_Retain]
  | case3 t1 s2 t2 a b h ih =>
    simp only [transformGoLoop, transformOps, h, Bool.false_eq_true, if_false,
      if_pos rfl, ih, Option.map_map]
    cases transformOps t1 t2 <;> simp [addAll_cons, add_Insert, add_Retain]
  | case4 s1 t1 s2 t2 a b h h' ih =>
    simp only [transformGoLoop, transformOps, h, Bool.false_eq_true, if_false,
      if_neg h', ih, Option.map_map]
    cases transformOps (Operation.Insert s1 :: t1) t2 <;>
      simp [addAll_cons, add_Insert, add_Retain]
  | case5 s t1 l2 a b hne ih =>
    rcases l2 with _ | ⟨op, t2⟩
    · simp only [transformGoLoop, transformOps, ih, Option.map_map]
      cases transformOps t1 ([] : List Operation) <;>
        simp [addAll_cons, add_Insert, add_Retain]
    · cases op with
      | Insert s2 => exact absurd rfl (hne s2 t2)
      | Retain n =>
        simp only [transformGoLoop, transformOps, ih, Option.map_map]
        cases transformOps t1 (Operation.Retain n :: t2) <;>
          simp [addAll_cons, add_Insert, add_Retain]
      | Delete n =>
        simp only [transformGoLoop, transformOps, ih, Option.map_map]
        cases transformOps t1 (Operation.Delete n :: t2) <;>
          simp [addAll_cons, add_Insert, add_Retain]
  | case6 l1 s t2 a b hne hne2 ih =>
    rcases l1 with _ | ⟨op, t1⟩
    · simp only [transformGoLoop, transformOps, ih, Option.map_map]
      cases transformOps ([] : List Operation) t2 <;>
        simp [addAll_cons, add_Insert, add_Retain]
    · cases op with
      | Insert s1 => exact absurd rfl (hne s1 t1)
      | Retain n =>
        simp only [transformGoLoop, transformOps, ih, Option.map_map]
        cases transformOps (Operation.Retain n :: t1) t2 <;>
          simp [addAll_cons, add_Insert, add_Retain]
      | Delete n =>
        simp only [transformGoLoop, transformOps, ih, Option.map_map]
        cases transformOps (Operation.Delete n :: t1) t2 <;>
          simp [addAll_cons, add_Insert, add_Retain]
  | case7 head tail a b hne =>
    rcases head with n | n | s
    · simp [transformGoLoop, transformOps]
    · simp [transformGoLoop, transformOps]
    · exact absurd rfl (hne s)
  | case8 head tail a b hne =>
    rcases head with n | n | s
    · simp [transformGoLoop, transformOps]
    · simp [transformGoLoop, transformOps]
    · exact absurd rfl (hne s)
  | case9 n1 t1 n2 t2 a b h ih =>
    simp only [transformGoLoop, transformOps, if_pos h, ih, Option.map_map]
    cases transformOps t1 (Operation.Retain (n2 - n1) :: t2) <;>
      simp [addAll_cons, add_Retain]
  | case10 t1 n2 t2 a b h ih =>
    simp [transformGoLoop, transformOps, h, ih, Option.map_map, addAll_cons, add_Retain]
    cases transformOps t1 t2 <;> simp [addAll_cons, add_Retain]
  | case11 n1 t1 n2 t2 a b h h' ih =>
    simp only [transformGoLoop, transformOps, if_neg h, if_neg h', ih, Option.map_map]
    cases transformOps (Operation.Retain (n1 - n2) :: t1) t2 <;>
      simp [addAll_cons, add_Retain]
  | case12 n1 t1 n2 t2 a b h ih =>
    simp only [transformGoLoop, transformOps, if_pos h, ih]
  | case13 t1 n2 t2 a b h ih =>
    simp [transformGoLoop, transformOps, h, ih]
  | case14 n1 t1 n2 t2 a b h h' ih =>
    simp only [transformGoLoop, transformOps, if_neg h, if_neg h', ih]
  | case15 n1 t1 n2 t2 a b h ih =>
    simp only [transformGoLoop, transformOps, if_pos h, ih, Option.map_map]
    cases transformOps t1 (Operation.Retain (n2 - n1) :: t2) <;>
      simp [addAll_cons, add_Delete]
  | case16 t1 n2 t2 a b h ih =>
    simp [transformGoLoop, transformOps, h, ih, Option.map_map, addAll_cons, add_Delete]
    cases transformOps t1 t2 <;> simp [addAll_cons, add_Delete]
  | case17 n1 t1 n2 t2 a b h h' ih =>
    simp only [transformGoLoop, transformOps, if_neg h, if_neg h', ih, Option.map_map]
    cases transformOps (Operation.Delete (n1 - n2) :: t1) t2 <;>
      simp [addAll_cons, add_Delete]
  | case18 n1 t1 n2 t2 a b h ih =>
    simp only [transformGoLoop, transformOps, if_pos h, ih, Option.map_map]
    cases transformOps t1 (Operation.Delete (n2 - n1) :: t2) <;>
      simp [addAll_cons, add_Delete]
  | case19 t1 n2 t2 a b h ih =>
    simp [transformGoLoop, transformOps, h, ih, Option.map_map, addAll_cons, add_Delete]
    cases transformOps t1 t2 <;> simp [addAll_cons, add_Delete]
  | case20 n1 t1 n2 t2 a b h h' ih =>
    simp only [transformGoLoop, transformOps, if_neg h, if_neg h', ih, Option.map_map]
    cases transformOps (Operation.Retain (n1 - n2) :: t1) t2 <;>
      simp [addAll_cons, add_Delete]

/-! ## Length bookkeeping and the action of `applyOps` -/

@[simp] theorem opBaseLen_Retain (n : Nat) : opBaseLen (Operation.Retain n) = n := rfl

@[simp] theorem opBaseLen_Delete (n : Nat) : opBaseLen (Operation.Delete n) = n := rfl

@[simp] theorem opBaseLen_Insert (s : List Char) : opBaseLen (Operation.Insert s) = 0 := rfl

@[simp] theorem opTargetLen_Retain (n : Nat) : opTargetLen (Operation.Retain n) = n := rfl

@[simp] theorem opTargetLen_Delete (n : Nat) : opTargetLen (Operation.Delete n) = 0 := rfl

@[simp] theorem opTargetLen_Insert (s : List Char) :
    opTargetLen (Operation.Insert s) = charCount s := rfl

@[simp] theorem opsBaseLen_nil : opsBaseLen [] = 0 := rfl

@[simp] theorem opsBaseLen_cons (op : Operation) (l : List Operation) :
    opsBaseLen (op :: l) = opBaseLen op + opsBaseLen l := rfl

@[simp] theorem opsBaseLen_append (l1 l2 : List Operation) :
    opsBaseLen (l1 ++ l2) = opsBaseLen l1 + opsBaseLen l2 := by
  simp [opsBaseLen]

@[simp] theorem opsTargetLen_nil : opsTargetLen [] = 0 := rfl

@[simp] theorem opsTargetLen_cons (op : Operation) (l : List Operation) :
    opsTargetLen (op :: l) = opTargetLen op + opsTargetLen l := rfl

@[simp] theorem opsTargetLen_append (l1 l2 : List Operation) :
    opsTargetLen (l1 ++ l2) = opsTargetLen l1 + opsTargetLen l2 := by
  simp [opsTargetLen]

/-- `applyOps` over a concatenation: the first block consumes its base length
of input, the second gets the rest.  Holds unconditionally thanks to the
clamping semantics of `take`/`drop`. -/
theorem applyOps_append (l1 l2 : List Operation) (cs : List Char) :
    applyOps (l1 ++ l2) cs =
      applyOps l1 cs ++ applyOps l2 (cs.drop (opsBaseLen l1)) := by
  induction l1 generalizing cs with
  | nil => simp [applyOps]
  | cons op rest ih =>
    cases op with
    | Retain n =>
      simp [applyOps, ih, opBaseLen, List.drop_drop, Nat.add_comm]
    | Delete n =>
      simp [applyOps, ih, opBaseLen, List.drop_drop, Nat.add_comm]
    | Insert t =>
      simp [applyOps, ih, opBaseLen]

/-- When the input has exactly the base length, the output has exactly the
target length. -/
theorem applyOps_length (l : List Operation) (cs : List Char)
    (h : cs.length = opsBaseLen l) :
    (applyOps l cs).length = opsTargetLen l := by
  induction l generalizing cs with
  | nil => simp [applyOps]
  | cons op rest ih =>
    cases op with
    | Retain n =>
      have hn : n ≤ cs.length := by simp [opBaseLen] at h; omega
      have : (cs.drop n).length = opsBaseLen rest := by
        simp [opBaseLen] at h; simp [List.length_drop]; omega
      simp [applyOps, opTargetLen, ih _ this, List.length_take]
      omega
    | Delete n =>
      have : (cs.drop n).length = opsBaseLen rest := by
        simp [opBaseLen] at h; simp [List.length_drop]; omega
      simp [applyOps, opTargetLen, ih _ this]
    | Insert t =>
      have : cs.length = opsBaseLen rest := by simpa [opBaseLen] using h
      simp [applyOps, opTargetLen, ih _ this, charCount]

/-! ## Denotational equivalence of operation lists

Two operation lists are equivalent when they consume and produce the same
lengths and act identically on every input.  The builder's merging and
reordering preserve this equivalence, which is what lets us reason about the
canonicalized outputs of `Compose`/`Transform`/`Invert` through the plain
emission lists. -/


theorem equivOps_refl (l : List Operation) : equivOps l l :=
  ⟨rfl, rfl, fun _ => rfl⟩

theorem equivOps_trans {l1 l2 l3 : List Operation} (h1 : equivOps l1 l2)
    (h2 : equivOps l2 l3) : equivOps l1 l3 :=
  ⟨h1.1.trans h2.1, h1.2.1.trans h2.2.1, fun cs => (h1.2.2 cs).trans (h2.2.2 cs)⟩

theorem equivOps_append_left {l l' : List Operation} (t : List Operation)
    (h : equivOps l l') : equivOps (l ++ t) (l' ++ t) := by
  refine ⟨by simp [h.1], by simp [h.2.1], fun cs => ?_⟩
  simp [applyOps_append, h.1, h.2.1, h.2.2]

theorem equivOps_append_right (i : List Operation) {t t' : List Operation}
    (h : equivOps t t') : equivOps (i ++ t) (i ++ t') := by
  refine ⟨by simp [h.1], by simp [h.2.1], fun cs => ?_⟩
  simp [applyOps_append, h.1, h.2.1, h.2.2]

/-! ### Small tail equivalences used by the builder lemmas -/

theorem equiv_retain_merge (m n : Nat) :
    equivOps [Operation.Retain (m + n)] [Operation.Retain m, Operation.Retain n] := by
  refine ⟨by simp [opBaseLen], by simp [opTargetLen], fun cs => ?_⟩
  simp [applyOps, List.take_add]

theorem equiv_delete_merge (m n : Nat) :
    equivOps [Operation.Delete (m + n)] [Operation.Delete m, Operation.Delete n] := by
  refine ⟨by simp [opBaseLen], by simp [opTargetLen], fun cs => ?_⟩
  simp [applyOps]

theorem equiv_insert_merge (t s : List Char) :
    equivOps [Operation.Insert (t ++ s)] [Operation.Insert t, Operation.Insert s] := by
  refine ⟨by simp [opBaseLen], by simp [opTargetLen, charCount], fun cs => ?_⟩
  simp [applyOps]

theorem equiv_insert_behind_delete (t s : List Char) (d : Nat) :
    equivOps [Operation.Insert (t ++ s), Operation.Delete d]
      [Operation.Insert t, Operation.Delete d, Operation.Insert s] := by
  refine ⟨by simp [opBaseLen], by simp [opTargetLen, charCount], fun cs => ?_⟩
  simp [applyOps]

theorem equiv_insert_before_delete (s : List Char) (d : Nat) :
    equivOps [Operation.Insert s, Operation.Delete d]
      [Operation.Delete d, Operation.Insert s] := by
  refine ⟨by simp [opBaseLen], by simp [opTargetLen], fun cs => ?_⟩
  simp [applyOps]

theorem equiv_retain_zero (l : List Operation) :
    equivOps l (l ++ [Operation.Retain 0]) := by
  refine ⟨by simp [opBaseLen], by simp [opTargetLen], fun cs => ?_⟩
  simp [applyOps_append, applyOps]

theorem equiv_delete_zero (l : List Operation) :
    equivOps l (l ++ [Operation.Delete 0]) := by
  refine ⟨by simp [opBaseLen], by simp [opTargetLen], fun cs => ?_⟩
  simp [applyOps_append, applyOps]

theorem equiv_insert_empty (l : List Operation) :
    equivOps l (l ++ [Operation.Insert []]) := by
  refine ⟨by simp [opBaseLen], by simp [opTargetLen, charCount], fun cs => ?_⟩
  simp [applyOps_append, applyOps]

/-! ### The builder methods, denotationally -/

/-- Recover `o.ops` from its reverse, for case analysis on the last element. -/
theorem ops_eq_of_reverse {o : OperationSeq} {r : List Operation}
    (h : o.ops.reverse = r) : o.ops = r.reverse := by
  rw [← List.reverse_reverse o.ops, h]

/-- `Retain` is, up to equivalence, appending one `Retain n`. -/
theorem Retain_ops_equiv (o : OperationSeq) (n : Nat) :
    equivOps (o.Retain n).ops (o.ops ++ [Operation.Retain n]) := by
  by_cases hn : n = 0
  · subst hn
    simp only [OperationSeq.Retain, if_pos rfl]
    exact equiv_retain_zero o.ops
  · simp only [OperationSeq.Retain, if_neg hn]
    rcases hr : o.ops.reverse with _ | ⟨(m | m | t), rest⟩ <;>
      rw [ops_eq_of_reverse hr]
    · exact equivOps_refl _
    · simp only [retainMerge, List.reverse_cons, List.append_assoc]
      exact equivOps_append_right rest.reverse (equiv_retain_merge m n)
    · simp only [retainMerge, List.reverse_cons]
      exact equivOps_refl _
    · simp only [retainMerge, List.reverse_cons]
      exact equivOps_refl _

/-- `Delete` is, up to equivalence, appending one `Delete n`. -/
theorem Delete_ops_equiv (o : OperationSeq) (n : Nat) :
    equivOps (o.Delete n).ops (o.ops ++ [Operation.Delete n]) := by
  by_cases hn : n = 0
  · subst hn
    simp only [OperationSeq.Delete, if_pos rfl]
    exact equiv_delete_zero o.ops
  · simp only [OperationSeq.Delete, if_neg hn]
    rcases hr : o.ops.reverse with _ | ⟨(m | m | t), rest⟩ <;>
      rw [ops_eq_of_reverse hr]
    · exact equivOps_refl _
    · simp only [deleteMerge, List.reverse_cons]
      exact equivOps_refl _
    · simp only [deleteMerge, List.reverse_cons, List.append_assoc]
      exact equivOps_append_right rest.reverse (equiv_delete_merge m n)
    · simp only [deleteMerge, List.reverse_cons]
      exact equivOps_refl _

/-- `Insert` is, up to equivalence, appending one `Insert s`: all three merge
branches (merge into a trailing insert, merge into the insert before a
trailing delete, splice before a trailing delete) preserve the action. -/
theorem Insert_ops_equiv (o : OperationSeq) (s : List Char) :
    equivOps (o.Insert s).ops (o.ops ++ [Operation.Insert s]) := by
  by_cases hs : s = []
  · subst hs
    simp only [OperationSeq.Insert, if_pos rfl]
    exact equiv_insert_empty o.ops
  · simp only [OperationSeq.Insert, if_neg hs]
    rcases hr : o.ops.reverse with _ | ⟨(m | d | t), rest⟩
    · rw [ops_eq_of_reverse hr]
      exact equivOps_refl _
    · rw [ops_eq_of_reverse hr]
      simp only [insertMerge, List.reverse_cons, List.append_assoc]
      exact equivOps_refl _
    · rcases rest with _ | ⟨(m' | d' | t'), rest'⟩
      · rw [ops_eq_of_reverse hr]
        simp only [insertMerge, List.reverse_cons, List.reverse_nil, List.nil_append]
        exact equiv_insert_before_delete s d
      · rw [ops_eq_of_reverse hr]
        simp only [insertMerge, List.reverse_cons, List.append_assoc, List.cons_append,
          List.nil_append]
        exact equivOps_append_right rest'.reverse
          (equivOps_append_right [Operation.Retain m'] (equiv_insert_before_delete s d))
      · rw [ops_eq_of_reverse hr]
        simp only [insertMerge, List.reverse_cons, List.append_assoc, List.cons_append,
          List.nil_append]
        exact equivOps_append_right rest'.reverse
          (equivOps_append_right [Operation.Delete d'] (equiv_insert_before_delete s d))
      · rw [ops_eq_of_reverse hr]
        simp only [insertMerge, List.reverse_cons, List.append_assoc, List.cons_append,
          List.nil_append]
        exact equivOps_append_right rest'.reverse (equiv_insert_behind_delete t' s d)
    · rw [ops_eq_of_reverse hr]
      simp only [insertMerge, List.reverse_cons, List.append_assoc]
      exact equivOps_append_right rest.reverse (equiv_insert_merge t s)

/-- `add` is, up to equivalence, appending the operation. -/
theorem add_ops_equiv (o : OperationSeq) (op : Operation) :
    equivOps (o.add op).ops (o.ops ++ [op]) := by
  cases op with
  | Retain n => exact Retain_ops_equiv o n
  | Delete n => exact Delete_ops_equiv o n
  | Insert s => exact Insert_ops_equiv o s

/-- `addAll` is, up to equivalence, list concatenation. -/
theorem addAll_ops_equiv (l : List Operation) (o : OperationSeq) :
    equivOps (addAll o l).ops (o.ops ++ l) := by
  induction l generalizing o with
  | nil => simpa [addAll_nil] using equivOps_refl o.ops
  | cons op t ih =>
    rw [addAll_cons]
    refine equivOps_trans (ih (o.add op)) ?_
    have h1 : equivOps ((o.add op).ops ++ t) ((o.ops ++ [op]) ++ t) :=
      equivOps_append_left t (add_ops_equiv o op)
    simpa [List.append_assoc] using h1

/-! ### Stored counters -/

theorem Retain_baseLen (o : OperationSeq) (n : Nat) :
    (o.Retain n).baseLen = o.baseLen + n := by
  by_cases hn : n = 0 <;> simp [OperationSeq.Retain, hn]

theorem Retain_targetLen (o : OperationSeq) (n : Nat) :
    (o.Retain n).targetLen = o.targetLen + n := by
  by_cases hn : n = 0 <;> simp [OperationSeq.Retain, hn]

theorem Delete_baseLen (o : OperationSeq) (n : Nat) :
    (o.Delete n).baseLen = o.baseLen + n := by
  by_cases hn : n = 0 <;> simp [OperationSeq.Delete, hn]

theorem Delete_targetLen (o : OperationSeq) (n : Nat) :
    (o.Delete n).targetLen = o.targetLen := by
  by_cases hn : n = 0 <;> simp [OperationSeq.Delete, hn]

theorem Insert_baseLen (o : OperationSeq) (s : List Char) :
    (o.Insert s).baseLen = o.baseLen := by
  by_cases hs : s = [] <;> simp [OperationSeq.Insert, hs]

theorem Insert_targetLen (o : OperationSeq) (s : List Char) :
    (o.Insert s).targetLen = o.targetLen + charCount s := by
  by_cases hs : s = [] <;> simp [OperationSeq.Insert, hs, charCount]

theorem add_baseLen (o : OperationSeq) (op : Operation) :
    (o.add op).baseLen = o.baseLen + opBaseLen op := by
  cases op <;>
    simp [OperationSeq.add, Retain_baseLen, Delete_baseLen, Insert_baseLen, opBaseLen]

theorem add_targetLen (o : OperationSeq) (op : Operation) :
    (o.add op).targetLen = o.targetLen + opTargetLen op := by
  cases op <;>
    simp [OperationSeq.add, Retain_targetLen, Delete_targetLen, Insert_targetLen, opTargetLen]

theorem addAll_baseLen (l : List Operation) (o : OperationSeq) :
    (addAll o l).baseLen = o.baseLen + opsBaseLen l := by
  induction l generalizing o with
  | nil => simp [addAll_nil]
  | cons op t ih => rw [addAll_cons, ih, add_baseLen]; simp; omega

theorem addAll_targetLen (l : List Operation) (o : OperationSeq) :
    (addAll o l).targetLen = o.targetLen + opsTargetLen l := by
  induction l generalizing o with
  | nil => simp [addAll_nil]
  | cons op t ih => rw [addAll_cons, ih, add_targetLen]; simp; omega


theorem coherent_new : Coherent NewOperationSeq := ⟨rfl, rfl⟩

theorem coherent_add {o : OperationSeq} (h : Coherent o) (op : Operation) :
    Coherent (o.add op) := by
  obtain ⟨hb, ht⟩ := h
  constructor
  · rw [add_baseLen, (add_ops_equiv o op).1, hb]; simp
  · rw [add_targetLen, (add_ops_equiv o op).2.1, ht]; simp

theorem built_coherent {o : OperationSeq} (h : Built o) : Coherent o := by
  induction h with
  | empty => exact coherent_new
  | retain o n _ ih => exact coherent_add ih (Operation.Retain n)
  | delete o n _ ih => exact coherent_add ih (Operation.Delete n)
  | insert o s _ ih => exact coherent_add ih (Operation.Insert s)

theorem built_add {o : OperationSeq} (h : Built o) (op : Operation) :
    Built (o.add op) := by
  cases op with
  | Retain n => exact Built.retain o n h
  | Delete n => exact Built.delete o n h
  | Insert s => exact Built.insert o s h

theorem built_addAll {o : OperationSeq} (h : Built o) (l : List Operation) :
    Built (addAll o l) := by
  induction l generalizing o with
  | nil => exact h
  | cons op t ih => rw [addAll_cons]; exact ih (built_add h op)

theorem coherent_addAll_new (l : List Operation) :
    (addAll NewOperationSeq l).baseLen = opsBaseLen l ∧
      (addAll NewOperationSeq l).targetLen = opsTargetLen l := by
  constructor
  · rw [addAll_baseLen]; simp [NewOperationSeq]
  · rw [addAll_targetLen]; simp [NewOperationSeq]

/-! ## Canonical form -/




theorem opsWF_nil : opsWF [] := by intro op h; cases h

theorem opsWF_cons {op : Operation} {l : List Operation} (h : opsWF (op :: l)) :
    opOK op = true ∧ opsWF l := by
  exact ⟨h op (List.mem_cons_self op l), fun x hx => h x (List.mem_cons_of_mem op hx)⟩

theorem opsWF_cons_of {op : Operation} {l : List Operation}
    (h1 : opOK op = true) (h2 : opsWF l) : opsWF (op :: l) := by
  intro x hx
  rcases List.mem_cons.1 hx with rfl | hx
  · exact h1
  · exact h2 x hx

/-! ## Invert: correctness core -/

theorem invertOps_baseLen (ops : List Operation) (cs : List Char) :
    opsBaseLen (invertOps ops cs) = opsTargetLen ops := by
  induction ops generalizing cs with
  | nil => rfl
  | cons op rest ih =>
    cases op <;> simp [invertOps, opBaseLen, opTargetLen, ih]

theorem invertOps_targetLen (ops : List Operation) (cs : List Char)
    (h : cs.length = opsBaseLen ops) :
    opsTargetLen (invertOps ops cs) = opsBaseLen ops := by
  induction ops generalizing cs with
  | nil => rfl
  | cons op rest ih =>
    cases op with
    | Retain n =>
      have h' : (cs.drop n).length = opsBaseLen rest := by
        simp [opBaseLen] at h; simp [List.length_drop]; omega
      simp [invertOps, opBaseLen, opTargetLen, ih _ h']
    | Delete n =>
      have hn : n ≤ cs.length := by simp [opBaseLen] at h; omega
      have h' : (cs.drop n).length = opsBaseLen rest := by
        simp [opBaseLen] at h; simp [List.length_drop]; omega
      simp [invertOps, opBaseLen, opTargetLen, ih _ h', charCount, List.length_take]
      omega
    | Insert t =>
      have h' : cs.length = opsBaseLen rest := by simpa [opBaseLen] using h
      simp [invertOps, opBaseLen, opTargetLen, ih _ h', charCount]

/-- Round trip: the inverse applied to the output recovers the input. -/
theorem invertOps_applyOps (ops : List Operation) (cs : List Char)
    (h : cs.length = opsBaseLen ops) :
    applyOps (invertOps ops cs) (applyOps ops cs) = cs := by
  induction ops generalizing cs with
  | nil =>
    simp [opsBaseLen] at h
    simp [invertOps, applyOps, h]
  | cons op rest ih =>
    cases op with
    | Retain n =>
      have hn : n ≤ cs.length := by simp [opBaseLen] at h; omega
      have h' : (cs.drop n).length = opsBaseLen rest := by
        simp [opBaseLen] at h; simp [List.length_drop]; omega
      have htk : (cs.take n).length = n := by simp [List.length_take]; omega
      simp only [invertOps, applyOps]
      rw [List.take_left' htk, List.drop_left' htk, ih _ h']
      exact List.take_append_drop n cs
    | Delete n =>
      have h' : (cs.drop n).length = opsBaseLen rest := by
        simp [opBaseLen] at h; simp [List.length_drop]; omega
      simp only [invertOps, applyOps]
      rw [ih _ h']
      exact List.take_append_drop n cs
    | Insert t =>
      have h' : cs.length = opsBaseLen rest := by simpa [opBaseLen] using h
      have htk : t.length = charCount t := rfl
      simp only [invertOps, applyOps]
      rw [List.drop_left' htk, ih _ h']

/-! ## Compose: correctness core -/

/-- Everything that holds of a successful `composeOps` run: the composite
consumes what the first operation consumes, produces what the second produces,
and acts as the sequential composition on any input of the right length. -/
theorem composeOps_spec (l1 l2 : List Operation) :
    ∀ c, composeOps l1 l2 = some c →
      opsBaseLen c = opsBaseLen l1 ∧ opsTargetLen c = opsTargetLen l2 ∧
      ∀ cs : List Char, cs.length = opsBaseLen l1 →
        applyOps c cs = applyOps l2 (applyOps l1 cs) := by
  induction l1, l2 using composeOps.induct with
  | case1 =>
    intro c hc
    simp only [composeOps, Option.some.injEq] at hc
    subst hc
    exact ⟨rfl, rfl, fun cs _ => rfl⟩
  | case2 n t1 l2 ih =>
    intro c hc
    simp only [composeOps] at hc
    rcases Option.map_eq_some'.mp hc with ⟨c', hc', rfl⟩
    obtain ⟨ihb, iht, ihs⟩ := ih c' hc'
    refine ⟨by simp [opBaseLen, ihb], by simp [opTargetLen, iht], ?_⟩
    intro cs hcs
    simp only [opsBaseLen_cons, opBaseLen] at hcs
    have hdl : (cs.drop n).length = opsBaseLen t1 := by simp; omega
    simp only [applyOps]
    rw [ihs (cs.drop n) hdl]
  | case3 l1 s t2 hne ih =>
    intro c hc
    have hstep : composeOps l1 (Operation.Insert s :: t2) =
        (composeOps l1 t2).map (Operation.Insert s :: ·) := by
      rcases l1 with _ | ⟨(n | n | s'), t1⟩
      · simp [composeOps]
      · simp [composeOps]
      · exact absurd rfl (hne n t1)
      · simp [composeOps]
    rw [hstep] at hc
    rcases Option.map_eq_some'.mp hc with ⟨c', hc', rfl⟩
    obtain ⟨ihb, iht, ihs⟩ := ih c' hc'
    refine ⟨by simp [opBaseLen, ihb], by simp [opTargetLen, iht], ?_⟩
    intro cs hcs
    simp only [applyOps]
    rw [ihs cs hcs]
  | case4 head tail hne =>
    intro c hc
    rcases head with n | n | s
    · simp [composeOps] at hc
    · simp [composeOps] at hc
    · exact absurd rfl (hne s)
  | case5 head tail hne =>
    intro c hc
    rcases head with n | n | s
    · simp [composeOps] at hc
    · exact absurd rfl (hne n)
    · simp [composeOps] at hc
  | case6 n1 t1 n2 t2 h ih =>
    intro c hc
    simp only [composeOps, if_pos h] at hc
    rcases Option.map_eq_some'.mp hc with ⟨c', hc', rfl⟩
    obtain ⟨ihb, iht, ihs⟩ := ih c' hc'
    refine ⟨by simp [opBaseLen, ihb], ?_, ?_⟩
    · simp only [opsTargetLen_cons, opTargetLen, iht]
      omega
    · intro cs hcs
      simp only [opsBaseLen_cons, opBaseLen] at hcs
      have htk : (cs.take n1).length = n1 := by simp; omega
      have hdl : (cs.drop n1).length = opsBaseLen t1 := by simp; omega
      have hmin : min n2 n1 = n1 := by omega
      have hnil : (cs.take n1).drop n2 = [] :=
        List.drop_eq_nil_of_le (by simp; omega)
      simp only [applyOps]
      rw [ihs (cs.drop n1) hdl]
      simp only [applyOps]
      rw [List.take_append_eq_append_take, List.drop_append_eq_append_drop, htk,
        List.take_take, hmin, hnil]
      simp
  | case7 t1 n2 t2 h ih =>
    intro c hc
    simp only [composeOps, h, if_neg (lt_irrefl n2), if_pos rfl] at hc
    rcases Option.map_eq_some'.mp hc with ⟨c', hc', rfl⟩
    obtain ⟨ihb, iht, ihs⟩ := ih c' hc'
    refine ⟨by simp [opBaseLen, ihb], by simp [opTargetLen, iht], ?_⟩
    intro cs hcs
    simp only [opsBaseLen_cons, opBaseLen] at hcs
    have htk : (cs.take n2).length = n2 := by simp; omega
    have hdl : (cs.drop n2).length = opsBaseLen t1 := by simp; omega
    simp only [applyOps]
    rw [ihs (cs.drop n2) hdl, List.take_left' htk, List.drop_left' htk]
  | case8 n1 t1 n2 t2 h h' ih =>
    intro c hc
    simp only [composeOps, if_neg h, if_neg h'] at hc
    rcases Option.map_eq_some'.mp hc with ⟨c', hc', rfl⟩
    obtain ⟨ihb, iht, ihs⟩ := ih c' hc'
    have hle : n2 ≤ n1 := by omega
    refine ⟨?_, by simp [opTargetLen, iht], ?_⟩
    · simp only [opsBaseLen_cons, opBaseLen, ihb, opsBaseLen_cons]
      omega
    · intro cs hcs
      simp only [opsBaseLen_cons, opBaseLen] at hcs
      have htk : (cs.take n1).length = n1 := by simp; omega
      have hdl2 : (cs.drop n2).length = opsBaseLen (Operation.Retain (n1 - n2) :: t1) := by
        simp [opBaseLen]; omega
      have hmin : min n2 n1 = n2 := by omega
      have hz : n2 - n1 = 0 := by omega
      have harith : n2 + (n1 - n2) = n1 := by omega
      simp only [applyOps]
      rw [ihs (cs.drop n2) hdl2]
      simp only [applyOps]
      rw [List.take_append_eq_append_take, List.drop_append_eq_append_drop, htk,
        List.take_take, hmin, hz, List.drop_take, List.drop_drop, harith]
      simp
  | case9 s t1 n t2 h ih =>
    intro c hc
    simp only [composeOps, if_pos h] at hc
    obtain ⟨ihb, iht, ihs⟩ := ih c hc
    refine ⟨by simp [opBaseLen, ihb], by simpa [opTargetLen] using iht, ?_⟩
    intro cs hcs
    simp only [opsBaseLen_cons, opBaseLen] at hcs
    have hsl : s.length = charCount s := rfl
    have hnil : s.drop n = [] := List.drop_eq_nil_of_le (by rw [hsl]; omega)
    simp only [applyOps]
    rw [ihs cs (by simpa using hcs)]
    simp only [applyOps]
    rw [List.drop_append_eq_append_drop, hnil, hsl]
    simp
  | case10 s t1 t2 h ih =>
    intro c hc
    simp only [composeOps, lt_irrefl, if_false, if_pos rfl] at hc
    obtain ⟨ihb, iht, ihs⟩ := ih c hc
    refine ⟨by simp [opBaseLen, ihb], by simp [opTargetLen, iht], ?_⟩
    intro cs hcs
    simp only [opsBaseLen_cons, opBaseLen] at hcs
    have hsl : s.length = charCount s := rfl
    simp only [applyOps]
    rw [ihs cs (by simpa using hcs), List.drop_left' hsl]
  | case11 s t1 n t2 h h' ih =>
    intro c hc
    simp only [composeOps, if_neg h, if_neg h'] at hc
    obtain ⟨ihb, iht, ihs⟩ := ih c hc
    have hlt : n < charCount s := by omega
    refine ⟨by simp [opBaseLen, ihb], by simp [opTargetLen, iht], ?_⟩
    intro cs hcs
    simp only [opsBaseLen_cons, opBaseLen] at hcs
    have hsl : s.length = charCount s := rfl
    have hz : n - s.length = 0 := by rw [hsl]; omega
    simp only [applyOps]
    rw [ihs cs (by simpa [opBaseLen] using hcs)]
    simp only [applyOps]
    rw [List.drop_append_eq_append_drop, hz]
    simp
  | case12 s t1 n t2 h ih =>
    intro c hc
    simp only [composeOps, if_pos h] at hc
    rcases Option.map_eq_some'.mp hc with ⟨c', hc', rfl⟩
    obtain ⟨ihb, iht, ihs⟩ := ih c' hc'
    refine ⟨by simp [opBaseLen, ihb], ?_, ?_⟩
    · simp only [opsTargetLen_cons, opTargetLen, iht, opsTargetLen_cons]
      omega
    · intro cs hcs
      simp only [opsBaseLen_cons, opBaseLen] at hcs
      have hsl : s.length = charCount s := rfl
      have htks : s.take n = s := List.take_of_length_le (by rw [hsl]; omega)
      have hnil : s.drop n = [] := List.drop_eq_nil_of_le (by rw [hsl]; omega)
      simp only [applyOps]
      rw [ihs cs (by simpa using hcs)]
      simp only [applyOps]
      rw [List.take_append_eq_append_take, List.drop_append_eq_append_drop, hsl,
        htks, hnil]
      simp
  | case13 s t1 t2 h ih =>
    intro c hc
    simp only [composeOps, lt_irrefl, if_false, if_pos rfl] at hc
    rcases Option.map_eq_some'.mp hc with ⟨c', hc', rfl⟩
    obtain ⟨ihb, iht, ihs⟩ := ih c' hc'
    refine ⟨by simp [opBaseLen, ihb], by simp [opTargetLen, iht], ?_⟩
    intro cs hcs
    have hsl : s.length = charCount s := rfl
    simp only [applyOps]
    rw [ihs cs (by simpa using hcs), List.take_left' hsl, List.drop_left' hsl]
  | case14 s t1 n t2 h h' ih =>
    intro c hc
    simp only [composeOps, if_neg h, if_neg h'] at hc
    rcases Option.map_eq_some'.mp hc with ⟨c', hc', rfl⟩
    obtain ⟨ihb, iht, ihs⟩ := ih c' hc'
    have hlt : n < charCount s := by omega
    refine ⟨by simp [opBaseLen, ihb], ?_, ?_⟩
    · simp only [opsTargetLen_cons, opTargetLen, iht, charCount, List.length_take]
      have : s.length = charCount s := rfl
      omega
    · intro cs hcs
      have hsl : s.length = charCount s := rfl
      have hz : n - s.length = 0 := by rw [hsl]; omega
      simp only [applyOps]
      rw [ihs cs (by simpa [opBaseLen] using hcs)]
      simp only [applyOps]
      rw [List.take_append_eq_append_take, List.drop_append_eq_append_drop, hz]
      simp
  | case15 n1 t1 n2 t2 h ih =>
    intro c hc
    simp only [composeOps, if_pos h] at hc
    rcases Option.map_eq_some'.mp hc with ⟨c', hc', rfl⟩
    obtain ⟨ihb, iht, ihs⟩ := ih c' hc'
    refine ⟨by simp [opBaseLen, ihb], by simp [opTargetLen, iht], ?_⟩
    intro cs hcs
    simp only [opsBaseLen_cons, opBaseLen] at hcs
    have htk : (cs.take n1).length = n1 := by simp; omega
    have hdl : (cs.drop n1).length = opsBaseLen t1 := by simp; omega
    have hnil : (cs.take n1).drop n2 = [] :=
      List.drop_eq_nil_of_le (by simp; omega)
    simp only [applyOps]
    rw [ihs (cs.drop n1) hdl]
    simp only [applyOps]
    rw [List.drop_append_eq_append_drop, htk, hnil]
    simp
  | case16 t1 n2 t2 h ih =>
    intro c hc
    simp only [composeOps, lt_irrefl, if_false, if_pos rfl] at hc
    rcases Option.map_eq_some'.mp hc with ⟨c', hc', rfl⟩
    obtain ⟨ihb, iht, ihs⟩ := ih c' hc'
    refine ⟨by simp [opBaseLen, ihb], by simp [opTargetLen, iht], ?_⟩
    intro cs hcs
    simp only [opsBaseLen_cons, opBaseLen] at hcs
    have htk : (cs.take n2).length = n2 := by simp; omega
    have hdl : (cs.drop n2).length = opsBaseLen t1 := by simp; omega
    simp only [applyOps]
    rw [ihs (cs.drop n2) hdl, List.drop_left' htk]
  | case17 n1 t1 n2 t2 h h' ih =>
    intro c hc
    simp only [composeOps, if_neg h, if_neg h'] at hc
    rcases Option.map_eq_some'.mp hc with ⟨c', hc', rfl⟩
    obtain ⟨ihb, iht, ihs⟩ := ih c' hc'
    refine ⟨?_, by simp [opTargetLen, iht], ?_⟩
    · simp only [opsBaseLen_cons, opBaseLen, ihb, opsBaseLen_cons]
      omega
    · intro cs hcs
      simp only [opsBaseLen_cons, opBaseLen] at hcs
      have htk : (cs.take n1).length = n1 := by simp; omega
      have hdl2 : (cs.drop n2).length = opsBaseLen (Operation.Retain (n1 - n2) :: t1) := by
        simp [opBaseLen]; omega
      have hz : n2 - n1 = 0 := by omega
      have harith : n2 + (n1 - n2) = n1 := by omega
      simp only [applyOps]
      rw [ihs (cs.drop n2) hdl2]
      simp only [applyOps]
      rw [List.drop_append_eq_append_drop, htk, hz, List.drop_take, List.drop_drop,
        harith]
      simp

theorem opOK_Retain_iff (n : Nat) : opOK (Operation.Retain n) = true ↔ n ≠ 0 := by
  simp [opOK]

theorem opOK_Delete_iff (n : Nat) : opOK (Operation.Delete n) = true ↔ n ≠ 0 := by
  simp [opOK]

theorem opOK_Insert_iff (s : List Char) : opOK (Operation.Insert s) = true ↔ s ≠ [] := by
  simp [opOK]

/-- On well-formed inputs the `A.targetLen == B.baseLen` precondition rules
out the defensive mid-loop length-mismatch error of `Compose`. -/
theorem composeOps_success (l1 l2 : List Operation) :
    opsWF l1 → opsWF l2 → opsTargetLen l1 = opsBaseLen l2 →
      ∃ c, composeOps l1 l2 = some c := by
  induction l1, l2 using composeOps.induct with
  | case1 =>
    exact fun _ _ _ => ⟨[], by simp [composeOps]⟩
  | case2 n t1 l2 ih =>
    intro w1 w2 hl
    obtain ⟨_, w1'⟩ := opsWF_cons w1
    obtain ⟨c, hc⟩ := ih w1' w2 (by simpa using hl)
    exact ⟨Operation.Delete n :: c, by simp [composeOps, hc]⟩
  | case3 l1 s t2 hne ih =>
    intro w1 w2 hl
    obtain ⟨_, w2'⟩ := opsWF_cons w2
    obtain ⟨c, hc⟩ := ih w1 w2' (by simpa using hl)
    refine ⟨Operation.Insert s :: c, ?_⟩
    rcases l1 with _ | ⟨(n | n | s'), t1⟩
    · simp [composeOps, hc]
    · simp [composeOps, hc]
    · exact absurd rfl (hne n t1)
    · simp [composeOps, hc]
  | case4 head tail hne =>
    intro w1 w2 hl
    obtain ⟨hok, _⟩ := opsWF_cons w2
    rcases head with n | n | s
    · rw [opOK_Retain_iff] at hok
      simp at hl
      omega
    · rw [opOK_Delete_iff] at hok
      simp at hl
      omega
    · exact absurd rfl (hne s)
  | case5 head tail hne =>
    intro w1 w2 hl
    obtain ⟨hok, _⟩ := opsWF_cons w1
    rcases head with n | n | s
    · rw [opOK_Retain_iff] at hok
      simp at hl
      omega
    · exact absurd rfl (hne n)
    · rw [opOK_Insert_iff] at hok
      simp only [opsTargetLen_cons, opTargetLen_Insert, opsBaseLen_nil, charCount] at hl
      have : s.length = 0 := by omega
      exact absurd (List.eq_nil_of_length_eq_zero this) hok
  | case6 n1 t1 n2 t2 h ih =>
    intro w1 w2 hl
    obtain ⟨_, w1'⟩ := opsWF_cons w1
    obtain ⟨_, w2'⟩ := opsWF_cons w2
    have hok2 : opOK (Operation.Retain (n2 - n1)) = true := by
      rw [opOK_Retain_iff]; omega
    simp only [opsTargetLen_cons, opTargetLen_Retain, opsBaseLen_cons,
      opBaseLen_Retain] at hl
    obtain ⟨c, hc⟩ := ih w1' (opsWF_cons_of hok2 w2') (by simp; omega)
    exact ⟨Operation.Retain n1 :: c, by simp [composeOps, if_pos h, hc]⟩
  | case7 t1 n2 t2 h ih =>
    intro w1 w2 hl
    obtain ⟨_, w1'⟩ := opsWF_cons w1
    obtain ⟨_, w2'⟩ := opsWF_cons w2
    simp only [opsTargetLen_cons, opTargetLen_Retain, opsBaseLen_cons,
      opBaseLen_Retain] at hl
    obtain ⟨c, hc⟩ := ih w1' w2' (by omega)
    exact ⟨Operation.Retain n2 :: c, by simp [composeOps, hc]⟩
  | case8 n1 t1 n2 t2 h h' ih =>
    intro w1 w2 hl
    obtain ⟨_, w1'⟩ := opsWF_cons w1
    obtain ⟨_, w2'⟩ := opsWF_cons w2
    have hok1 : opOK (Operation.Retain (n1 - n2)) = true := by
      rw [opOK_Retain_iff]; omega
    simp only [opsTargetLen_cons, opTargetLen_Retain, opsBaseLen_cons,
      opBaseLen_Retain] at hl
    obtain ⟨c, hc⟩ := ih (opsWF_cons_of hok1 w1') w2' (by simp; omega)
    exact ⟨Operation.Retain n2 :: c, by simp [composeOps, if_neg h, if_neg h', hc]⟩
  | case9 s t1 n t2 h ih =>
    intro w1 w2 hl
    obtain ⟨_, w1'⟩ := opsWF_cons w1
    obtain ⟨_, w2'⟩ := opsWF_cons w2
    have hok2 : opOK (Operation.Delete (n - charCount s)) = true := by
      rw [opOK_Delete_iff]; omega
    simp only [opsTargetLen_cons, opTargetLen_Insert, opsBaseLen_cons,
      opBaseLen_Delete] at hl
    obtain ⟨c, hc⟩ := ih w1' (opsWF_cons_of hok2 w2') (by simp; omega)
    exact ⟨c, by simp [composeOps, if_pos h, hc]⟩
  | case10 s t1 t2 h ih =>
    intro w1 w2 hl
    obtain ⟨_, w1'⟩ := opsWF_cons w1
    obtain ⟨_, w2'⟩ := opsWF_cons w2
    simp only [opsTargetLen_cons, opTargetLen_Insert, opsBaseLen_cons,
      opBaseLen_Delete] at hl
    obtain ⟨c, hc⟩ := ih w1' w2' (by omega)
    exact ⟨c, by simp [composeOps, hc]⟩
  | case11 s t1 n t2 h h' ih =>
    intro w1 w2 hl
    obtain ⟨_, w1'⟩ := opsWF_cons w1
    obtain ⟨_, w2'⟩ := opsWF_cons w2
    have hlt : n < s.length := by
      have h2 : ¬ s.length < n := h
      have h3 : ¬ s.length = n := h'
      omega
    have hok1 : opOK (Operation.Insert (s.drop n)) = true := by
      rw [opOK_Insert_iff]
      intro hempty
      have : s.length - n = 0 := by
        simpa using congrArg List.length hempty
      omega
    simp only [opsTargetLen_cons, opTargetLen_Insert, opsBaseLen_cons,
      opBaseLen_Delete, charCount] at hl
    have hlen : opsTargetLen (Operation.Insert (s.drop n) :: t1) = opsBaseLen t2 := by
      simp only [opsTargetLen_cons, opTargetLen_Insert, charCount, List.length_drop]
      omega
    obtain ⟨c, hc⟩ := ih (opsWF_cons_of hok1 w1') w2' hlen
    exact ⟨c, by simp [composeOps, if_neg h, if_neg h', hc]⟩
  | case12 s t1 n t2 h ih =>
    intro w1 w2 hl
    obtain ⟨_, w1'⟩ := opsWF_cons w1
    obtain ⟨_, w2'⟩ := opsWF_cons w2
    have hok2 : opOK (Operation.Retain (n - charCount s)) = true := by
      rw [opOK_Retain_iff]; omega
    simp only [opsTargetLen_cons, opTargetLen_Insert, opsBaseLen_cons,
      opBaseLen_Retain] at hl
    obtain ⟨c, hc⟩ := ih w1' (opsWF_cons_of hok2 w2') (by simp; omega)
    exact ⟨Operation.Insert s :: c, by simp [composeOps, if_pos h, hc]⟩
  | case13 s t1 t2 h ih =>
    intro w1 w2 hl
    obtain ⟨_, w1'⟩ := opsWF_cons w1
    obtain ⟨_, w2'⟩ := opsWF_cons w2
    simp only [opsTargetLen_cons, opTargetLen_Insert, opsBaseLen_cons,
      opBaseLen_Retain] at hl
    obtain ⟨c, hc⟩ := ih w1' w2' (by omega)
    exact ⟨Operation.Insert s :: c, by simp [composeOps, hc]⟩
  | case14 s t1 n t2 h h' ih =>
    intro w1 w2 hl
    obtain ⟨_, w1'⟩ := opsWF_cons w1
    obtain ⟨_, w2'⟩ := opsWF_cons w2
    have hlt : n < s.length := by
      have h2 : ¬ s.length < n := h
      have h3 : ¬ s.length = n := h'
      omega
    have hok1 : opOK (Operation.Insert (s.drop n)) = true := by
      rw [opOK_Insert_iff]
      intro hempty
      have : s.length - n = 0 := by
        simpa using congrArg List.length hempty
      omega
    simp only [opsTargetLen_cons, opTargetLen_Insert, opsBaseLen_cons,
      opBaseLen_Retain, charCount] at hl
    have hlen : opsTargetLen (Operation.Insert (s.drop n) :: t1) = opsBaseLen t2 := by
      simp only [opsTargetLen_cons, opTargetLen_Insert, charCount, List.length_drop]
      omega
    obtain ⟨c, hc⟩ := ih (opsWF_cons_of hok1 w1') w2' hlen
    exact ⟨Operation.Insert (s.take n) :: c,
      by simp [composeOps, if_neg h, if_neg h', hc]⟩
  | case15 n1 t1 n2 t2 h ih =>
    intro w1 w2 hl
    obtain ⟨_, w1'⟩ := opsWF_cons w1
    obtain ⟨_, w2'⟩ := opsWF_cons w2
    have hok2 : opOK (Operation.Delete (n2 - n1)) = true := by
      rw [opOK_Delete_iff]; omega
    simp only [opsTargetLen_cons, opTargetLen_Retain, opsBaseLen_cons,
      opBaseLen_Delete] at hl
    obtain ⟨c, hc⟩ := ih w1' (opsWF_cons_of hok2 w2') (by simp; omega)
    exact ⟨Operation.Delete n1 :: c, by simp [composeOps, if_pos h, hc]⟩
  | case16 t1 n2 t2 h ih =>
    intro w1 w2 hl
    obtain ⟨_, w1'⟩ := opsWF_cons w1
    obtain ⟨_, w2'⟩ := opsWF_cons w2
    simp only [opsTargetLen_cons, opTargetLen_Retain, opsBaseLen_cons,
      opBaseLen_Delete] at hl
    obtain ⟨c, hc⟩ := ih w1' w2' (by omega)
    exact ⟨Operation.Delete n2 :: c, by simp [composeOps, hc]⟩
  | case17 n1 t1 n2 t2 h h' ih =>
    intro w1 w2 hl
    obtain ⟨_, w1'⟩ := opsWF_cons w1
    obtain ⟨_, w2'⟩ := opsWF_cons w2
    have hok1 : opOK (Operation.Retain (n1 - n2)) = true := by
      rw [opOK_Retain_iff]; omega
    simp only [opsTargetLen_cons, opTargetLen_Retain, opsBaseLen_cons,
      opBaseLen_Delete] at hl
    obtain ⟨c, hc⟩ := ih (opsWF_cons_of hok1 w1') w2' (by simp; omega)
    exact ⟨Operation.Delete n2 :: c, by simp [composeOps, if_neg h, if_neg h', hc]⟩

/-! ## Transform: correctness core -/

/-- Everything that holds of a successful `transformOps` run: the transformed
pair has the cross lengths needed to apply each output on the other side's
document, the two outputs produce the same length, and TP1 holds: applying
`l1` then the second output equals applying `l2` then the first output. -/
theorem transformOps_spec (l1 l2 : List Operation) :
    ∀ p : List Operation × List Operation, transformOps l1 l2 = some p →
      opsBaseLen p.1 = opsTargetLen l2 ∧ opsBaseLen p.2 = opsTargetLen l1 ∧
      opsTargetLen p.1 = opsTargetLen p.2 ∧
      ∀ cs : List Char, cs.length = opsBaseLen l1 → cs.length = opsBaseLen l2 →
        applyOps p.2 (applyOps l1 cs) = applyOps p.1 (applyOps l2 cs) := by
  induction l1, l2 using transformOps.induct with
  | case1 =>
    intro p hp
    simp only [transformOps, Option.some.injEq] at hp
    subst hp
    exact ⟨rfl, rfl, rfl, fun cs _ _ => rfl⟩
  | case2 s1 t1 s2 t2 h ih =>
    intro p hp
    simp only [transformOps, if_pos h] at hp
    rcases Option.map_eq_some'.mp hp with ⟨⟨ta, tb⟩, hp', rfl⟩
    obtain ⟨ih1, ih2, ih3, ihs⟩ := ih _ hp'
    simp only at ih1 ih2 ih3 ihs
    have hsl : s1.length = charCount s1 := rfl
    refine ⟨by simpa using ih1, by simp [charCount, ih2], by simp [charCount, ih3], ?_⟩
    intro cs hcs1 hcs2
    have hs' := ihs cs (by simpa using hcs1) hcs2
    simp only [applyOps] at hs' ⊢
    rw [List.take_left' hsl, List.drop_left' hsl, hs']
  | case3 t1 s2 t2 h ih =>
    intro p hp
    simp only [transformOps, h, Bool.false_eq_true, if_false, eq_self_iff_true,
      if_true] at hp
    rcases Option.map_eq_some'.mp hp with ⟨⟨ta, tb⟩, hp', rfl⟩
    obtain ⟨ih1, ih2, ih3, ihs⟩ := ih _ hp'
    simp only at ih1 ih2 ih3 ihs
    have hsl : s2.length = charCount s2 := rfl
    refine ⟨by simp [charCount, ih1], by simp [charCount, ih2],
      by simp [charCount, ih3], ?_⟩
    intro cs hcs1 hcs2
    have hs' := ihs cs (by simpa using hcs1) (by simpa using hcs2)
    simp only [applyOps] at hs' ⊢
    rw [List.take_left' hsl, List.drop_left' hsl, List.take_left' hsl,
      List.drop_left' hsl, hs']
  | case4 s1 t1 s2 t2 h h' ih =>
    intro p hp
    simp only [transformOps, h, Bool.false_eq_true, if_false, if_neg h'] at hp
    rcases Option.map_eq_some'.mp hp with ⟨⟨ta, tb⟩, hp', rfl⟩
    obtain ⟨ih1, ih2, ih3, ihs⟩ := ih _ hp'
    simp only at ih1 ih2 ih3 ihs
    have hsl : s2.length = charCount s2 := rfl
    refine ⟨by simp [charCount, ih1], by simpa using ih2, by simp [charCount, ih3], ?_⟩
    intro cs hcs1 hcs2
    have hs' := ihs cs hcs1 (by simpa using hcs2)
    simp only [applyOps] at hs' ⊢
    rw [List.take_left' hsl, List.drop_left' hsl, hs']
  | case5 s t1 l2 hne ih =>
    intro p hp
    have hstep : transformOps (Operation.Insert s :: t1) l2 =
        (transformOps t1 l2).map
          (fun p => (Operation.Insert s :: p.1,
                     Operation.Retain (charCount s) :: p.2)) := by
      rcases l2 with _ | ⟨(n | n | s2), t2⟩
      · simp [transformOps]
      · simp [transformOps]
      · simp [transformOps]
      · exact absurd rfl (hne s2 t2)
    rw [hstep] at hp
    rcases Option.map_eq_some'.mp hp with ⟨⟨ta, tb⟩, hp', rfl⟩
    obtain ⟨ih1, ih2, ih3, ihs⟩ := ih _ hp'
    simp only at ih1 ih2 ih3 ihs
    have hsl : s.length = charCount s := rfl
    refine ⟨by simpa using ih1, by simp [charCount, ih2], by simp [charCount, ih3], ?_⟩
    intro cs hcs1 hcs2
    have hs' := ihs cs (by simpa using hcs1) hcs2
    simp only [applyOps] at hs' ⊢
    rw [List.take_left' hsl, List.drop_left' hsl, hs']
  | case6 l1 s t2 hne hne2 ih =>
    intro p hp
    have hstep : transformOps l1 (Operation.Insert s :: t2) =
        (transformOps l1 t2).map
          (fun p => (Operation.Retain (charCount s) :: p.1,
                     Operation.Insert s :: p.2)) := by
      rcases l1 with _ | ⟨(n | n | s1), t1⟩
      · simp [transformOps]
      · simp [transformOps]
      · simp [transformOps]
      · exact absurd rfl (hne s1 t1)
    rw [hstep] at hp
    rcases Option.map_eq_some'.mp hp with ⟨⟨ta, tb⟩, hp', rfl⟩
    obtain ⟨ih1, ih2, ih3, ihs⟩ := ih _ hp'
    simp only at ih1 ih2 ih3 ihs
    have hsl : s.length = charCount s := rfl
    refine ⟨by simp [charCount, ih1], by simpa using ih2, by simp [charCount, ih3], ?_⟩
    intro cs hcs1 hcs2
    have hs' := ihs cs hcs1 (by simpa using hcs2)
    simp only [applyOps] at hs' ⊢
    rw [List.take_left' hsl, List.drop_left' hsl, hs']
  | case7 head tail hne =>
    intro p hp
    rcases head with n | n | s
    · simp [transformOps] at hp
    · simp [transformOps] at hp
    · exact absurd rfl (hne s)
  | case8 head tail hne =>
    intro p hp
    rcases head with n | n | s
    · simp [transformOps] at hp
    · simp [transformOps] at hp
    · exact absurd rfl (hne s)
  | case9 n1 t1 n2 t2 h ih =>
    intro p hp
    simp only [transformOps, if_pos h] at hp
    rcases Option.map_eq_some'.mp hp with ⟨⟨ta, tb⟩, hp', rfl⟩
    obtain ⟨ih1, ih2, ih3, ihs⟩ := ih _ hp'
    simp only at ih1 ih2 ih3 ihs
    refine ⟨by simp [ih1]; omega, by simp [ih2], by simp [ih3], ?_⟩
    intro cs hcs1 hcs2
    simp only [opsBaseLen_cons, opBaseLen_Retain] at hcs1 hcs2
    have htk1 : (cs.take n1).length = n1 := by simp; omega
    have hdl1 : (cs.drop n1).length = opsBaseLen t1 := by simp; omega
    have hdl2 : (cs.drop n1).length = opsBaseLen (Operation.Retain (n2 - n1) :: t2) := by
      simp; omega
    have hmin : min n1 n2 = n1 := by omega
    have hz : n1 - n2 = 0 := by omega
    have harith : n1 + (n2 - n1) = n2 := by omega
    simp only [applyOps]
    rw [List.take_left' htk1, List.drop_left' htk1]
    rw [ihs (cs.drop n1) hdl1 hdl2]
    simp only [applyOps]
    rw [List.take_append_eq_append_take, List.drop_append_eq_append_drop]
    have htk2 : (cs.take n2).length = n2 := by simp; omega
    rw [htk2, List.take_take, hmin, hz, List.drop_take, List.drop_drop, harith]
    simp
  | case10 t1 n2 t2 h ih =>
    intro p hp
    simp only [transformOps, lt_irrefl, if_false, if_pos rfl] at hp
    rcases Option.map_eq_some'.mp hp with ⟨⟨ta, tb⟩, hp', rfl⟩
    obtain ⟨ih1, ih2, ih3, ihs⟩ := ih _ hp'
    simp only at ih1 ih2 ih3 ihs
    refine ⟨by simp [ih1], by simp [ih2], by simp [ih3], ?_⟩
    intro cs hcs1 hcs2
    simp only [opsBaseLen_cons, opBaseLen_Retain] at hcs1 hcs2
    have htk : (cs.take n2).length = n2 := by simp; omega
    have hdl1 : (cs.drop n2).length = opsBaseLen t1 := by simp; omega
    have hdl2 : (cs.drop n2).length = opsBaseLen t2 := by simp; omega
    have hs' := ihs (cs.drop n2) hdl1 hdl2
    simp only [applyOps] at hs' ⊢
    rw [List.take_left' htk, List.drop_left' htk, hs', List.take_left' htk,
      List.drop_left' htk]
  | case11 n1 t1 n2 t2 h h' ih =>
    intro p hp
    simp only [transformOps, if_neg h, if_neg h'] at hp
    rcases Option.map_eq_some'.mp hp with ⟨⟨ta, tb⟩, hp', rfl⟩
    obtain ⟨ih1, ih2, ih3, ihs⟩ := ih _ hp'
    simp only at ih1 ih2 ih3 ihs
    refine ⟨by simp [ih1], by simp [ih2]; omega, by simp [ih3], ?_⟩
    intro cs hcs1 hcs2
    simp only [opsBaseLen_cons, opBaseLen_Retain] at hcs1 hcs2
    have htk2 : (cs.take n2).length = n2 := by simp; omega
    have hdl1 : (cs.drop n2).length = opsBaseLen (Operation.Retain (n1 - n2) :: t1) := by
      simp; omega
    have hdl2 : (cs.drop n2).length = opsBaseLen t2 := by simp; omega
    have hmin : min n2 n1 = n2 := by omega
    have hz : n2 - n1 = 0 := by omega
    have harith : n2 + (n1 - n2) = n1 := by omega
    have htk1 : (cs.take n1).length = n1 := by simp; omega
    have hs' := ihs (cs.drop n2) hdl1 hdl2
    simp only [applyOps] at hs'
    rw [List.drop_drop, harith] at hs'
    simp only [applyOps]
    rw [List.take_append_eq_append_take, List.drop_append_eq_append_drop, htk1,
      List.take_take, hmin, hz, List.drop_take]
    simp only [List.take_zero, List.drop_zero, List.append_nil]
    rw [hs', List.take_left' htk2, List.drop_left' htk2]
  | case12 n1 t1 n2 t2 h ih =>
    intro p hp
    simp only [transformOps, if_pos h] at hp
    obtain ⟨ih1, ih2, ih3, ihs⟩ := ih _ hp
    refine ⟨by simp [ih1], by simp [ih2], ih3, ?_⟩
    intro cs hcs1 hcs2
    simp only [opsBaseLen_cons, opBaseLen_Delete] at hcs1 hcs2
    have hdl1 : (cs.drop n1).length = opsBaseLen t1 := by simp; omega
    have hdl2 : (cs.drop n1).length = opsBaseLen (Operation.Delete (n2 - n1) :: t2) := by
      simp; omega
    have harith : n1 + (n2 - n1) = n2 := by omega
    simp only [applyOps]
    rw [ihs (cs.drop n1) hdl1 hdl2]
    simp only [applyOps]
    rw [List.drop_drop, harith]
  | case13 t1 n2 t2 h ih =>
    intro p hp
    simp only [transformOps, lt_irrefl, if_false, if_pos rfl] at hp
    obtain ⟨ih1, ih2, ih3, ihs⟩ := ih _ hp
    refine ⟨by simp [ih1], by simp [ih2], ih3, ?_⟩
    intro cs hcs1 hcs2
    simp only [opsBaseLen_cons, opBaseLen_Delete] at hcs1 hcs2
    have hdl1 : (cs.drop n2).length = opsBaseLen t1 := by simp; omega
    have hdl2 : (cs.drop n2).length = opsBaseLen t2 := by simp; omega
    simp only [applyOps]
    rw [ihs (cs.drop n2) hdl1 hdl2]
  | case14 n1 t1 n2 t2 h h' ih =>
    intro p hp
    simp only [transformOps, if_neg h, if_neg h'] at hp
    obtain ⟨ih1, ih2, ih3, ihs⟩ := ih _ hp
    refine ⟨by simp [ih1], by simp [ih2], ih3, ?_⟩
    intro cs hcs1 hcs2
    simp only [opsBaseLen_cons, opBaseLen_Delete] at hcs1 hcs2
    have hdl1 : (cs.drop n2).length = opsBaseLen (Operation.Delete (n1 - n2) :: t1) := by
      simp; omega
    have hdl2 : (cs.drop n2).length = opsBaseLen t2 := by simp; omega
    have harith : n2 + (n1 - n2) = n1 := by omega
    have hs' := ihs (cs.drop n2) hdl1 hdl2
    simp only [applyOps] at hs'
    rw [List.drop_drop, harith] at hs'
    simp only [applyOps]
    rw [hs']
  | case15 n1 t1 n2 t2 h ih =>
    intro p hp
    simp only [transformOps, if_pos h] at hp
    rcases Option.map_eq_some'.mp hp with ⟨⟨ta, tb⟩, hp', rfl⟩
    obtain ⟨ih1, ih2, ih3, ihs⟩ := ih _ hp'
    simp only at ih1 ih2 ih3 ihs
    refine ⟨by simp [ih1]; omega, by simp [ih2], by simp [ih3], ?_⟩
    intro cs hcs1 hcs2
    simp only [opsBaseLen_cons, opBaseLen_Delete, opBaseLen_Retain] at hcs1 hcs2
    have htk2 : (cs.take n2).length = n2 := by simp; omega
    have hdl1 : (cs.drop n1).length = opsBaseLen t1 := by simp; omega
    have hdl2 : (cs.drop n1).length = opsBaseLen (Operation.Retain (n2 - n1) :: t2) := by
      simp; omega
    have hz : n1 - n2 = 0 := by omega
    have harith : n1 + (n2 - n1) = n2 := by omega
    simp only [applyOps]
    rw [ihs (cs.drop n1) hdl1 hdl2]
    simp only [applyOps]
    rw [List.drop_append_eq_append_drop, htk2, hz, List.drop_take, List.drop_drop,
      harith]
    simp
  | case16 t1 n2 t2 h ih =>
    intro p hp
    simp only [transformOps, lt_irrefl, if_false, if_pos rfl] at hp
    rcases Option.map_eq_some'.mp hp with ⟨⟨ta, tb⟩, hp', rfl⟩
    obtain ⟨ih1, ih2, ih3, ihs⟩ := ih _ hp'
    simp only at ih1 ih2 ih3 ihs
    refine ⟨by simp [ih1], by simp [ih2], by simp [ih3], ?_⟩
    intro cs hcs1 hcs2
    simp only [opsBaseLen_cons, opBaseLen_Delete, opBaseLen_Retain] at hcs1 hcs2
    have htk : (cs.take n2).length = n2 := by simp; omega
    have hdl1 : (cs.drop n2).length = opsBaseLen t1 := by simp; omega
    have hdl2 : (cs.drop n2).length = opsBaseLen t2 := by simp; omega
    simp only [applyOps]
    rw [ihs (cs.drop n2) hdl1 hdl2, List.drop_left' htk]
  | case17 n1 t1 n2 t2 h h' ih =>
    intro p hp
    simp only [transformOps, if_neg h, if_neg h'] at hp
    rcases Option.map_eq_some'.mp hp with ⟨⟨ta, tb⟩, hp', rfl⟩
    obtain ⟨ih1, ih2, ih3, ihs⟩ := ih _ hp'
    simp only at ih1 ih2 ih3 ihs
    refine ⟨by simp [ih1], by simp [ih2], by simp [ih3], ?_⟩
    intro cs hcs1 hcs2
    simp only [opsBaseLen_cons, opBaseLen_Delete, opBaseLen_Retain] at hcs1 hcs2
    have htk2 : (cs.take n2).length = n2 := by simp; omega
    have hdl1 : (cs.drop n2).length = opsBaseLen (Operation.Delete (n1 - n2) :: t1) := by
      simp; omega
    have hdl2 : (cs.drop n2).length = opsBaseLen t2 := by simp; omega
    have harith : n2 + (n1 - n2) = n1 := by omega
    have hs' := ihs (cs.drop n2) hdl1 hdl2
    simp only [applyOps] at hs'
    rw [List.drop_drop, harith] at hs'
    simp only [applyOps]
    rw [List.drop_left' htk2, hs']
  | case18 n1 t1 n2 t2 h ih =>
    intro p hp
    simp only [transformOps, if_pos h] at hp
    rcases Option.map_eq_some'.mp hp with ⟨⟨ta, tb⟩, hp', rfl⟩
    obtain ⟨ih1, ih2, ih3, ihs⟩ := ih _ hp'
    simp only at ih1 ih2 ih3 ihs
    refine ⟨by simp [ih1], by simp [ih2], by simp [ih3], ?_⟩
    intro cs hcs1 hcs2
    simp only [opsBaseLen_cons, opBaseLen_Delete, opBaseLen_Retain] at hcs1 hcs2
    have htk1 : (cs.take n1).length = n1 := by simp; omega
    have hdl1 : (cs.drop n1).length = opsBaseLen t1 := by simp; omega
    have hdl2 : (cs.drop n1).length = opsBaseLen (Operation.Delete (n2 - n1) :: t2) := by
      simp; omega
    have harith : n1 + (n2 - n1) = n2 := by omega
    simp only [applyOps]
    rw [List.drop_left' htk1]
    rw [ihs (cs.drop n1) hdl1 hdl2]
    simp only [applyOps]
    rw [List.drop_drop, harith]
  | case19 t1 n2 t2 h ih =>
    intro p hp
    simp only [transformOps, lt_irrefl, if_false, if_pos rfl] at hp
    rcases Option.map_eq_some'.mp hp with ⟨⟨ta, tb⟩, hp', rfl⟩
    obtain ⟨ih1, ih2, ih3, ihs⟩ := ih _ hp'
    simp only at ih1 ih2 ih3 ihs
    refine ⟨by simp [ih1], by simp [ih2], by simp [ih3], ?_⟩
    intro cs hcs1 hcs2
    simp only [opsBaseLen_cons, opBaseLen_Delete, opBaseLen_Retain] at hcs1 hcs2
    have htk : (cs.take n2).length = n2 := by simp; omega
    have hdl1 : (cs.drop n2).length = opsBaseLen t1 := by simp; omega
    have hdl2 : (cs.drop n2).length = opsBaseLen t2 := by simp; omega
    simp only [applyOps]
    rw [List.drop_left' htk, ihs (cs.drop n2) hdl1 hdl2]
  | case20 n1 t1 n2 t2 h h' ih =>
    intro p hp
    simp only [transformOps, if_neg h, if_neg h'] at hp
    rcases Option.map_eq_some'.mp hp with ⟨⟨ta, tb⟩, hp', rfl⟩
    obtain ⟨ih1, ih2, ih3, ihs⟩ := ih _ hp'
    simp only at ih1 ih2 ih3 ihs
    refine ⟨by simp [ih1], by simp [ih2]; omega, by simp [ih3], ?_⟩
    intro cs hcs1 hcs2
    simp only [opsBaseLen_cons, opBaseLen_Delete, opBaseLen_Retain] at hcs1 hcs2
    have htk1 : (cs.take n1).length = n1 := by simp; omega
    have hdl1 : (cs.drop n2).length = opsBaseLen (Operation.Retain (n1 - n2) :: t1) := by
      simp; omega
    have hdl2 : (cs.drop n2).length = opsBaseLen t2 := by simp; omega
    have hz : n2 - n1 = 0 := by omega
    have harith : n2 + (n1 - n2) = n1 := by omega
    have hs' := ihs (cs.drop n2) hdl1 hdl2
    simp only [applyOps] at hs'
    rw [List.drop_drop, harith] at hs'
    simp only [applyOps]
    rw [List.drop_append_eq_append_drop, htk1, hz, List.drop_take]
    simp only [List.drop_zero]
    rw [hs']

/-- On well-formed inputs the `A.baseLen == B.baseLen` precondition rules out
the defensive mid-loop length-mismatch error of `Transform`. -/
theorem transformOps_success (l1 l2 : List Operation) :
    opsWF l1 → opsWF l2 → opsBaseLen l1 = opsBaseLen l2 →
      (transformOps l1 l2).isSome = true := by
  induction l1, l2 using transformOps.induct with
  | case1 =>
    exact fun _ _ _ => by simp [transformOps]
  | case2 s1 t1 s2 t2 h ih =>
    intro w1 w2 hl
    obtain ⟨_, w1'⟩ := opsWF_cons w1
    have hp := ih w1' w2 (by simpa using hl)
    rw [Option.isSome_iff_exists] at hp
    obtain ⟨p, hp⟩ := hp
    simp [transformOps, if_pos h, hp]
  | case3 t1 s2 t2 h ih =>
    intro w1 w2 hl
    obtain ⟨_, w1'⟩ := opsWF_cons w1
    obtain ⟨_, w2'⟩ := opsWF_cons w2
    have hp := ih w1' w2' (by simpa using hl)
    rw [Option.isSome_iff_exists] at hp
    obtain ⟨p, hp⟩ := hp
    simp [transformOps, h, hp]
  | case4 s1 t1 s2 t2 h h' ih =>
    intro w1 w2 hl
    obtain ⟨_, w2'⟩ := opsWF_cons w2
    have hp := ih w1 w2' (by simpa using hl)
    rw [Option.isSome_iff_exists] at hp
    obtain ⟨p, hp⟩ := hp
    simp [transformOps, h, if_neg h', hp]
  | case5 s t1 l2 hne ih =>
    intro w1 w2 hl
    obtain ⟨_, w1'⟩ := opsWF_cons w1
    have hp := ih w1' w2 (by simpa using hl)
    rw [Option.isSome_iff_exists] at hp
    obtain ⟨p, hp⟩ := hp
    rcases l2 with _ | ⟨(n | n | s2), t2⟩
    · simp [transformOps, hp]
    · simp [transformOps, hp]
    · simp [transformOps, hp]
    · exact absurd rfl (hne s2 t2)
  | case6 l1 s t2 hne hne2 ih =>
    intro w1 w2 hl
    obtain ⟨_, w2'⟩ := opsWF_cons w2
    have hp := ih w1 w2' (by simpa using hl)
    rw [Option.isSome_iff_exists] at hp
    obtain ⟨p, hp⟩ := hp
    rcases l1 with _ | ⟨(n | n | s1), t1⟩
    · simp [transformOps, hp]
    · simp [transformOps, hp]
    · simp [transformOps, hp]
    · exact absurd rfl (hne s1 t1)
  | case7 head tail hne =>
    intro w1 w2 hl
    obtain ⟨hok, _⟩ := opsWF_cons w2
    rcases head with n | n | s
    · rw [opOK_Retain_iff] at hok
      simp at hl
      omega
    · rw [opOK_Delete_iff] at hok
      simp at hl
      omega
    · exact absurd rfl (hne s)
  | case8 head tail hne =>
    intro w1 w2 hl
    obtain ⟨hok, _⟩ := opsWF_cons w1
    rcases head with n | n | s
    · rw [opOK_Retain_iff] at hok
      simp at hl
      omega
    · rw [opOK_Delete_iff] at hok
      simp at hl
      omega
    · exact absurd rfl (hne s)
  | case9 n1 t1 n2 t2 h ih =>
    intro w1 w2 hl
    obtain ⟨_, w1'⟩ := opsWF_cons w1
    obtain ⟨_, w2'⟩ := opsWF_cons w2
    have hok2 : opOK (Operation.Retain (n2 - n1)) = true := by
      rw [opOK_Retain_iff]; omega
    simp only [opsBaseLen_cons, opBaseLen_Retain] at hl
    have hp := ih w1' (opsWF_cons_of hok2 w2') (by simp; omega)
    rw [Option.isSome_iff_exists] at hp
    obtain ⟨p, hp⟩ := hp
    simp [transformOps, if_pos h, hp]
  | case10 t1 n2 t2 h ih =>
    intro w1 w2 hl
    obtain ⟨_, w1'⟩ := opsWF_cons w1
    obtain ⟨_, w2'⟩ := opsWF_cons w2
    simp only [opsBaseLen_cons, opBaseLen_Retain] at hl
    have hp := ih w1' w2' (by omega)
    rw [Option.isSome_iff_exists] at hp
    obtain ⟨p, hp⟩ := hp
    simp [transformOps, hp]
  | case11 n1 t1 n2 t2 h h' ih =>
    intro w1 w2 hl
    obtain ⟨_, w1'⟩ := opsWF_cons w1
    obtain ⟨_, w2'⟩ := opsWF_cons w2
    have hok1 : opOK (Operation.Retain (n1 - n2)) = true := by
      rw [opOK_Retain_iff]; omega
    simp only [opsBaseLen_cons, opBaseLen_Retain] at hl
    have hp := ih (opsWF_cons_of hok1 w1') w2' (by simp; omega)
    rw [Option.isSome_iff_exists] at hp
    obtain ⟨p, hp⟩ := hp
    simp [transformOps, if_neg h, if_neg h', hp]
  | case12 n1 t1 n2 t2 h ih =>
    intro w1 w2 hl
    obtain ⟨_, w1'⟩ := opsWF_cons w1
    obtain ⟨_, w2'⟩ := opsWF_cons w2
    have hok2 : opOK (Operation.Delete (n2 - n1)) = true := by
      rw [opOK_Delete_iff]; omega
    simp only [opsBaseLen_cons, opBaseLen_Delete] at hl
    have hp := ih w1' (opsWF_cons_of hok2 w2') (by simp; omega)
    rw [Option.isSome_iff_exists] at hp
    obtain ⟨p, hp⟩ := hp
    simp [transformOps, if_pos h, hp]
  | case13 t1 n2 t2 h ih =>
    intro w1 w2 hl
    obtain ⟨_, w1'⟩ := opsWF_cons w1
    obtain ⟨_, w2'⟩ := opsWF_cons w2
    simp only [opsBaseLen_cons, opBaseLen_Delete] at hl
    have hp := ih w1' w2' (by omega)
    rw [Option.isSome_iff_exists] at hp
    obtain ⟨p, hp⟩ := hp
    simp [transformOps, hp]
  | case14 n1 t1 n2 t2 h h' ih =>
    intro w1 w2 hl
    obtain ⟨_, w1'⟩ := opsWF_cons w1
    obtain ⟨_, w2'⟩ := opsWF_cons w2
    have hok1 : opOK (Operation.Delete (n1 - n2)) = true := by
      rw [opOK_Delete_iff]; omega
    simp only [opsBaseLen_cons, opBaseLen_Delete] at hl
    have hp := ih (opsWF_cons_of hok1 w1') w2' (by simp; omega)
    rw [Option.isSome_iff_exists] at hp
    obtain ⟨p, hp⟩ := hp
    simp [transformOps, if_neg h, if_neg h', hp]
  | case15 n1 t1 n2 t2 h ih =>
    intro w1 w2 hl
    obtain ⟨_, w1'⟩ := opsWF_cons w1
    obtain ⟨_, w2'⟩ := opsWF_cons w2
    have hok2 : opOK (Operation.Retain (n2 - n1)) = true := by
      rw [opOK_Retain_iff]; omega
    simp only [opsBaseLen_cons, opBaseLen_Delete, opBaseLen_Retain] at hl
    have hp := ih w1' (opsWF_cons_of hok2 w2') (by simp; omega)
    rw [Option.isSome_iff_exists] at hp
    obtain ⟨p, hp⟩ := hp
    simp [transformOps, if_pos h, hp]
  | case16 t1 n2 t2 h ih =>
    intro w1 w2 hl
    obtain ⟨_, w1'⟩ := opsWF_cons w1
    obtain ⟨_, w2'⟩ := opsWF_cons w2
    simp only [opsBaseLen_cons, opBaseLen_Delete, opBaseLen_Retain] at hl
    have hp := ih w1' w2' (by omega)
    rw [Option.isSome_iff_exists] at hp
    obtain ⟨p, hp⟩ := hp
    simp [transformOps, hp]
  | case17 n1 t1 n2 t2 h h' ih =>
    intro w1 w2 hl
    obtain ⟨_, w1'⟩ := opsWF_cons w1
    obtain ⟨_, w2'⟩ := opsWF_cons w2
    have hok1 : opOK (Operation.Delete (n1 - n2)) = true := by
      rw [opOK_Delete_iff]; omega
    simp only [opsBaseLen_cons, opBaseLen_Delete, opBaseLen_Retain] at hl
    have hp := ih (opsWF_cons_of hok1 w1') w2' (by simp; omega)
    rw [Option.isSome_iff_exists] at hp
    obtain ⟨p, hp⟩ := hp
    simp [transformOps, if_neg h, if_neg h', hp]
  | case18 n1 t1 n2 t2 h ih =>
    intro w1 w2 hl
    obtain ⟨_, w1'⟩ := opsWF_cons w1
    obtain ⟨_, w2'⟩ := opsWF_cons w2
    have hok2 : opOK (Operation.Delete (n2 - n1)) = true := by
      rw [opOK_Delete_iff]; omega
    simp only [opsBaseLen_cons, opBaseLen_Delete, opBaseLen_Retain] at hl
    have hp := ih w1' (opsWF_cons_of hok2 w2') (by simp; omega)
    rw [Option.isSome_iff_exists] at hp
    obtain ⟨p, hp⟩ := hp
    simp [transformOps, if_pos h, hp]
  | case19 t1 n2 t2 h ih =>
    intro w1 w2 hl
    obtain ⟨_, w1'⟩ := opsWF_cons w1
    obtain ⟨_, w2'⟩ := opsWF_cons w2
    simp only [opsBaseLen_cons, opBaseLen_Delete, opBaseLen_Retain] at hl
    have hp := ih w1' w2' (by omega)
    rw [Option.isSome_iff_exists] at hp
    obtain ⟨p, hp⟩ := hp
    simp [transformOps, hp]
  | case20 n1 t1 n2 t2 h h' ih =>
    intro w1 w2 hl
    obtain ⟨_, w1'⟩ := opsWF_cons w1
    obtain ⟨_, w2'⟩ := opsWF_cons w2
    have hok1 : opOK (Operation.Retain (n1 - n2)) = true := by
      rw [opOK_Retain_iff]; omega
    simp only [opsBaseLen_cons, opBaseLen_Delete, opBaseLen_Retain] at hl
    have hp := ih (opsWF_cons_of hok1 w1') w2' (by simp; omega)
    rw [Option.isSome_iff_exists] at hp
    obtain ⟨p, hp⟩ := hp
    simp [transformOps, if_neg h, if_neg h', hp]

/-! ## Canonical form of built sequences -/


theorem canonRev_tail {a : Operation} {l : List Operation}
    (h : canonRev (a :: l) = true) : canonRev l = true := by
  rcases l with _ | ⟨b, r⟩
  · rfl
  · simp only [canonRev, Bool.and_eq_true] at h
    exact h.2

theorem canonRev_head {a : Operation} {l : List Operation}
    (h : canonRev (a :: l) = true) : opOK a = true := by
  rcases l with _ | ⟨b, r⟩
  · simpa [canonRev] using h
  · simp only [canonRev, Bool.and_eq_true] at h
    exact h.1.1

theorem canonRev_pair {a b : Operation} {l : List Operation}
    (h : canonRev (a :: b :: l) = true) : pairOK b a = true := by
  simp only [canonRev, Bool.and_eq_true] at h
  exact h.1.2

theorem canonRev_cons_of {a b : Operation} {l : List Operation}
    (h1 : opOK a = true) (h2 : pairOK b a = true)
    (h3 : canonRev (b :: l) = true) : canonRev (a :: b :: l) = true := by
  simp [canonRev, h1, h2, h3]

/-- `pairOK` only looks at the variants, never at the payloads. -/
theorem lexLt_irrefl (s : List Char) : lexLt s s = false := by
  induction s with
  | nil => rfl
  | cons a as ih => simp [lexLt, ih]

theorem pairOK_retain_arg (b : Operation) (m n : Nat) :
    pairOK b (Operation.Retain m) = pairOK b (Operation.Retain n) := by
  cases b <;> rfl

theorem pairOK_delete_arg (b : Operation) (m n : Nat) :
    pairOK b (Operation.Delete m) = pairOK b (Operation.Delete n) := by
  cases b <;> rfl

theorem pairOK_insert_arg (b : Operation) (s t : List Char) :
    pairOK b (Operation.Insert s) = pairOK b (Operation.Insert t) := by
  cases b <;> rfl

theorem pairOK_insert_left (c : Operation) (s t : List Char) :
    pairOK (Operation.Insert s) c = pairOK (Operation.Insert t) c := by
  cases c <;> rfl

theorem canonRev_retainMerge {r : List Operation} (n : Nat) (hn : n ≠ 0)
    (h : canonRev r = true) : canonRev (retainMerge n r) = true := by
  rcases r with _ | ⟨(m | m | t), rest⟩
  · simp [retainMerge, canonRev, opOK, hn]
  · rcases rest with _ | ⟨b, rest'⟩
    · simp only [retainMerge]
      simp [canonRev, opOK]
      omega
    · simp only [retainMerge]
      refine canonRev_cons_of ?_ ?_ (canonRev_tail h)
      · simp [opOK]; omega
      · rw [pairOK_retain_arg b (m + n) m]
        exact canonRev_pair h
  · simp only [retainMerge]
    refine canonRev_cons_of (by simp [opOK, hn]) (by simp [pairOK]) h
  · simp only [retainMerge]
    refine canonRev_cons_of (by simp [opOK, hn]) (by simp [pairOK]) h

theorem canonRev_deleteMerge {r : List Operation} (n : Nat) (hn : n ≠ 0)
    (h : canonRev r = true) : canonRev (deleteMerge n r) = true := by
  rcases r with _ | ⟨(m | m | t), rest⟩
  · simp [deleteMerge, canonRev, opOK, hn]
  · simp only [deleteMerge]
    refine canonRev_cons_of (by simp [opOK, hn]) (by simp [pairOK]) h
  · rcases rest with _ | ⟨b, rest'⟩
    · simp only [deleteMerge]
      simp [canonRev, opOK]
      omega
    · simp only [deleteMerge]
      refine canonRev_cons_of ?_ ?_ (canonRev_tail h)
      · simp [opOK]; omega
      · rw [pairOK_delete_arg b (m + n) m]
        exact canonRev_pair h
  · simp only [deleteMerge]
    refine canonRev_cons_of (by simp [opOK, hn]) (by simp [pairOK]) h

theorem canonRev_insertMerge {r : List Operation} (s : List Char) (hs : s ≠ [])
    (h : canonRev r = true) : canonRev (insertMerge s r) = true := by
  have hsok : opOK (Operation.Insert s) = true := (opOK_Insert_iff s).mpr hs
  rcases r with _ | ⟨(m | d | t), rest⟩
  · simpa [insertMerge, canonRev] using hsok
  · -- trailing Retain: plain append
    simp only [insertMerge]
    refine canonRev_cons_of hsok (by simp [pairOK]) h
  · -- trailing Delete
    rcases rest with _ | ⟨(m' | d' | t'), rest'⟩
    · -- only a Delete: splice the insert behind it (reversed: after it)
      simp only [insertMerge]
      refine canonRev_cons_of (canonRev_head h) (by simp [pairOK]) ?_
      simp [canonRev, hsok]
    · -- Delete after Retain: splice
      simp only [insertMerge]
      refine canonRev_cons_of (canonRev_head h) (by simp [pairOK]) ?_
      refine canonRev_cons_of hsok (by simp [pairOK]) (canonRev_tail h)
    · -- two Deletes in a row cannot be canonical
      exact absurd (canonRev_pair h) (by simp [pairOK])
    · -- Delete preceded by an Insert: merge into that insert
      rcases rest' with _ | ⟨b, rest''⟩
      · simp only [insertMerge]
        refine canonRev_cons_of (canonRev_head h) (by simp [pairOK]) ?_
        have : t' ++ s ≠ [] := by
          intro hx
          exact hs (List.append_eq_nil.mp hx).2
        simp [canonRev, (opOK_Insert_iff _).mpr this]
      · simp only [insertMerge]
        refine canonRev_cons_of (canonRev_head h) (by simp [pairOK]) ?_
        have hne : t' ++ s ≠ [] := by
          intro hx
          exact hs (List.append_eq_nil.mp hx).2
        refine canonRev_cons_of ((opOK_Insert_iff _).mpr hne) ?_ ?_
        · rw [pairOK_insert_arg b (t' ++ s) t']
          exact canonRev_pair (canonRev_tail h)
        · exact canonRev_tail (canonRev_tail h)
  · -- trailing Insert: merge
    rcases rest with _ | ⟨b, rest'⟩
    · have hne : t ++ s ≠ [] := by
        intro hx
        exact hs (List.append_eq_nil.mp hx).2
      simp [insertMerge, canonRev, (opOK_Insert_iff _).mpr hne]
    · simp only [insertMerge]
      refine canonRev_cons_of ?_ ?_ (canonRev_tail h)
      · have hne : t ++ s ≠ [] := by
          intro hx
          exact hs (List.append_eq_nil.mp hx).2
        exact (opOK_Insert_iff _).mpr hne
      · rw [pairOK_insert_arg b (t ++ s) t]
        exact canonRev_pair h

/-- Every sequence reachable through the construction methods has a canonical
operation list. -/
theorem built_canonRev {o : OperationSeq} (h : Built o) :
    canonRev o.ops.reverse = true := by
  induction h with
  | empty => rfl
  | retain o n _ ih =>
    by_cases hn : n = 0
    · simpa [OperationSeq.Retain, hn] using ih
    · simp only [OperationSeq.Retain, if_neg hn, List.reverse_reverse]
      exact canonRev_retainMerge n hn ih
  | delete o n _ ih =>
    by_cases hn : n = 0
    · simpa [OperationSeq.Delete, hn] using ih
    · simp only [OperationSeq.Delete, if_neg hn, List.reverse_reverse]
      exact canonRev_deleteMerge n hn ih
  | insert o s _ ih =>
    by_cases hs : s = []
    · simpa [OperationSeq.Insert, hs] using ih
    · simp only [OperationSeq.Insert, if_neg hs, List.reverse_reverse]
      exact canonRev_insertMerge s hs ih

theorem canonRev_wf : ∀ {l : List Operation}, canonRev l = true → opsWF l := by
  intro l
  induction l with
  | nil => exact fun _ => opsWF_nil
  | cons a r ih =>
    intro h
    exact opsWF_cons_of (canonRev_head h) (ih (canonRev_tail h))

theorem canonRev_chain : ∀ {l : List Operation}, canonRev l = true →
    List.Chain' (fun a b => pairOK b a = true) l := by
  intro l
  induction l with
  | nil => exact fun _ => List.chain'_nil
  | cons a r ih =>
    intro h
    rcases r with _ | ⟨b, r'⟩
    · simp
    · rw [List.chain'_cons]
      exact ⟨canonRev_pair h, ih (canonRev_tail h)⟩

/-- Built sequences contain no zero-count `Retain`/`Delete` and no empty
`Insert`. -/
theorem built_opsWF {o : OperationSeq} (h : Built o) : opsWF o.ops := by
  intro op hop
  exact canonRev_wf (built_canonRev h) op (by simpa using hop)

/-- Built sequences have no forbidden adjacency: `pairOK` holds along the
stored list. -/
theorem built_chain {o : OperationSeq} (h : Built o) :
    List.Chain' (fun a b => pairOK a b = true) o.ops := by
  have hc := canonRev_chain (built_canonRev h)
  rw [List.chain'_reverse] at hc
  simpa [Function.flip_def] using hc

theorem canonRev_suffix : ∀ (x : List Operation) {y : List Operation},
    canonRev (x ++ y) = true → canonRev y = true := by
  intro x
  induction x with
  | nil => exact fun h => h
  | cons a r ih => exact fun h => ih (canonRev_tail h)

/-- Adding one operation that respects canonicity at the boundary is a plain
append (no merge, no reorder fires). -/
theorem add_plain (acc : OperationSeq) (op : Operation)
    (h : canonRev (op :: acc.ops.reverse) = true) :
    acc.add op = ⟨acc.ops ++ [op], acc.baseLen + opBaseLen op,
      acc.targetLen + opTargetLen op⟩ := by
  cases op with
  | Retain n =>
    have hn : n ≠ 0 := by
      have := canonRev_head h
      rwa [opOK_Retain_iff] at this
    simp only [OperationSeq.add, OperationSeq.Retain, if_neg hn]
    rcases hr : acc.ops.reverse with _ | ⟨(m | m | t), rest⟩
    · rw [ops_eq_of_reverse hr]
      simp [retainMerge]
    · rw [hr] at h
      exact absurd (canonRev_pair h) (by simp [pairOK])
    · rw [ops_eq_of_reverse hr]
      simp [retainMerge]
    · rw [ops_eq_of_reverse hr]
      simp [retainMerge]
  | Delete n =>
    have hn : n ≠ 0 := by
      have := canonRev_head h
      rwa [opOK_Delete_iff] at this
    simp only [OperationSeq.add, OperationSeq.Delete, if_neg hn]
    rcases hr : acc.ops.reverse with _ | ⟨(m | m | t), rest⟩
    · rw [ops_eq_of_reverse hr]
      simp [deleteMerge]
    · rw [ops_eq_of_reverse hr]
      simp [deleteMerge]
    · rw [hr] at h
      exact absurd (canonRev_pair h) (by simp [pairOK])
    · rw [ops_eq_of_reverse hr]
      simp [deleteMerge]
  | Insert s =>
    have hs : s ≠ [] := by
      have := canonRev_head h
      rwa [opOK_Insert_iff] at this
    simp only [OperationSeq.add, OperationSeq.Insert, if_neg hs]
    rcases hr : acc.ops.reverse with _ | ⟨(m | d | t), rest⟩
    · rw [ops_eq_of_reverse hr]
      simp [insertMerge, charCount]
    · rw [ops_eq_of_reverse hr]
      simp [insertMerge, charCount]
    · rw [hr] at h
      exact absurd (canonRev_pair h) (by simp [pairOK])
    · rw [hr] at h
      exact absurd (canonRev_pair h) (by simp [pairOK])

/-- Feeding a canonical list through the builder reproduces it verbatim. -/
theorem addAll_plain : ∀ (l : List Operation) (acc : OperationSeq),
    canonRev ((acc.ops ++ l).reverse) = true →
    addAll acc l = ⟨acc.ops ++ l, acc.baseLen + opsBaseLen l,
      acc.targetLen + opsTargetLen l⟩ := by
  intro l
  induction l with
  | nil =>
    intro acc _
    cases acc
    simp [addAll_nil]
  | cons op t ih =>
    intro acc h
    have hb : canonRev (op :: acc.ops.reverse) = true := by
      have h' : canonRev (t.reverse ++ (op :: acc.ops.reverse)) = true := by
        simpa [List.reverse_append] using h
      exact canonRev_suffix t.reverse h'
    have hstep := add_plain acc op hb
    rw [addAll_cons, hstep]
    have h2 : canonRev ((( ⟨acc.ops ++ [op], acc.baseLen + opBaseLen op,
        acc.targetLen + opTargetLen op⟩ : OperationSeq).ops ++ t).reverse) = true := by
      simpa [List.append_assoc] using h
    rw [ih _ h2]
    simp [List.append_assoc]
    constructor
    · omega
    · omega

/-- `UnmarshalJSON` of `MarshalJSON` output is the builder replay of the
original operation list. -/
theorem decode_encode (l : List Operation) (acc : OperationSeq) :
    (l.map encodeOp).foldl decodeStep acc = addAll acc l := by
  induction l generalizing acc with
  | nil => rfl
  | cons op t ih =>
    rcases op with n | n | s
    · have hstep : decodeStep acc (encodeOp (Operation.Retain n)) = acc.Retain n := by
        simp [decodeStep, encodeOp]
      simp only [List.map_cons, List.foldl_cons, hstep, addAll_cons, add_Retain]
      exact ih _
    · have hstep : decodeStep acc (encodeOp (Operation.Delete n)) = acc.Delete n := by
        by_cases hn : n = 0
        · subst hn
          simp [decodeStep, encodeOp, OperationSeq.Retain, OperationSeq.Delete]
        · have hneg : ¬ (0 : Int) ≤ -(n : Int) := by
            simp
            omega
          simp [decodeStep, encodeOp, hneg]
      simp only [List.map_cons, List.foldl_cons, hstep, addAll_cons, add_Delete]
      exact ih _
    · have hstep : decodeStep acc (encodeOp (Operation.Insert s)) = acc.Insert s := by
        simp [decodeStep, encodeOp]
      simp only [List.map_cons, List.foldl_cons, hstep, addAll_cons, add_Insert]
      exact ih _

/-- Full wire round trip for built sequences: decoding the encoding gives back
the very same `OperationSeq`. -/
theorem unmarshal_marshal {o : OperationSeq} (h : Built o) :
    UnmarshalJSON (o.MarshalJSON) = o := by
  obtain ⟨hb, ht⟩ := built_coherent h
  rw [UnmarshalJSON, OperationSeq.MarshalJSON, decode_encode]
  rw [addAll_plain o.ops NewOperationSeq (by simpa [NewOperationSeq] using built_canonRev h)]
  cases o
  simp [NewOperationSeq] at hb ht ⊢
  exact ⟨hb.symm, ht.symm⟩

/-! ## Assembly helpers for the claim theorems -/

theorem Apply_eq_some {o : OperationSeq} {s : List Char}
    (h : charCount s = o.baseLen) :
    o.Apply s = some (applyOps o.ops s) := by
  simp [OperationSeq.Apply, OperationSeq.applyPair, h]

theorem addAll_new_applyOps (t : List Operation) (cs : List Char) :
    applyOps (addAll NewOperationSeq t).ops cs = applyOps t cs := by
  have h := (addAll_ops_equiv t NewOperationSeq).2.2 cs
  simpa [NewOperationSeq] using h

theorem addAll_new_opsBaseLen (t : List Operation) :
    opsBaseLen (addAll NewOperationSeq t).ops = opsBaseLen t := by
  have h := (addAll_ops_equiv t NewOperationSeq).1
  simpa [NewOperationSeq] using h

theorem Transform_eq {A B : OperationSeq} {A' B' : OperationSeq}
    (hT : A.Transform B = some (A', B')) :
    ∃ t1 t2, transformOps A.ops B.ops = some (t1, t2) ∧
      A' = addAll NewOperationSeq t1 ∧ B' = addAll NewOperationSeq t2 := by
  rw [OperationSeq.Transform] at hT
  by_cases hb : A.baseLen ≠ B.baseLen
  · rw [if_pos hb] at hT
    cases hT
  · rw [if_neg hb, transformGoLoop_eq] at hT
    rcases Option.map_eq_some'.mp hT with ⟨⟨t1, t2⟩, hOps, heq⟩
    simp only [Prod.mk.injEq] at heq
    exact ⟨t1, t2, hOps, heq.1.symm, heq.2.symm⟩

theorem Compose_eq {A B : OperationSeq} {C : OperationSeq}
    (hC : A.Compose B = some C) :
    ∃ c, composeOps A.ops B.ops = some c ∧ C = addAll NewOperationSeq c := by
  rw [OperationSeq.Compose] at hC
  by_cases hb : A.targetLen ≠ B.baseLen
  · rw [if_pos hb] at hC
    cases hC
  · rw [if_neg hb, composeGoLoop_eq] at hC
    rcases Option.map_eq_some'.mp hC with ⟨c, hOps, heq⟩
    exact ⟨c, hOps, heq.symm⟩

/-! ## The claims -/

/-- C1 — Convergence (TP1): for every input text `S` and sequences `A`, `B`
(reachable through the construction methods) with
`A.baseLen = B.baseLen = charCount S`, if `Transform(A, B)` returns
`(A', B')` then applying `A` to `S` and then `B'` to the result yields the
same text as applying `B` to `S` and then `A'` to the result (and all four
applications succeed). -/
theorem transform_convergence_TP1 (A B : OperationSeq) (S : List Char)
    (A' B' : OperationSeq) (hA : Built A) (hB : Built B)
    (hlenA : A.baseLen = charCount S) (hlenB : B.baseLen = charCount S)
    (hT : A.Transform B = some (A', B')) :
    ∃ SA SB T : List Char,
      A.Apply S = some SA ∧ B.Apply S = some SB ∧
      B'.Apply SA = some T ∧ A'.Apply SB = some T := by
  obtain ⟨t1, t2, hOps, hA', hB'⟩ := Transform_eq hT
  obtain ⟨hcbA, hctA⟩ := built_coherent hA
  obtain ⟨hcbB, hctB⟩ := built_coherent hB
  obtain ⟨hl1, hl2, hl3, hsem⟩ := transformOps_spec A.ops B.ops (t1, t2) hOps
  simp only at hl1 hl2 hl3
  have hSA : charCount S = opsBaseLen A.ops := by rw [← hcbA, ← hlenA]
  have hSB : charCount S = opsBaseLen B.ops := by rw [← hcbB, ← hlenB]
  refine ⟨applyOps A.ops S, applyOps B.ops S, applyOps t2 (applyOps A.ops S),
    Apply_eq_some hlenA.symm, Apply_eq_some hlenB.symm, ?_, ?_⟩
  · have hlen : charCount (applyOps A.ops S) = B'.baseLen := by
      rw [hB', (coherent_addAll_new t2).1, hl2]
      exact applyOps_length A.ops S hSA
    rw [Apply_eq_some hlen, hB', addAll_new_applyOps]
  · have hlen : charCount (applyOps B.ops S) = A'.baseLen := by
      rw [hA', (coherent_addAll_new t1).1, hl1]
      exact applyOps_length B.ops S hSB
    rw [Apply_eq_some hlen, hA', addAll_new_applyOps]
    rw [← hsem S hSA hSB]

/-- C2 — Compose correctness: for every text `S` and built sequences `A`, `B`
with `A.targetLen = B.baseLen` and `A.baseLen = charCount S`, `Compose(A, B)`
returns a sequence `C` with `apply(S, C) = apply(apply(S, A), B)` (and the
applications succeed). -/
theorem compose_correctness (A B : OperationSeq) (S : List Char)
    (hA : Built A) (hB : Built B)
    (hcomp : A.targetLen = B.baseLen) (hlen : A.baseLen = charCount S) :
    ∃ C SA SB, A.Compose B = some C ∧
      A.Apply S = some SA ∧ B.Apply SA = some SB ∧ C.Apply S = some SB := by
  obtain ⟨hcbA, hctA⟩ := built_coherent hA
  obtain ⟨hcbB, hctB⟩ := built_coherent hB
  have hlsum : opsTargetLen A.ops = opsBaseLen B.ops := by
    rw [← hctA, ← hcbB, hcomp]
  obtain ⟨c, hc⟩ :=
    composeOps_success A.ops B.ops (built_opsWF hA) (built_opsWF hB) hlsum
  obtain ⟨hcb, hct, hsem⟩ := composeOps_spec A.ops B.ops c hc
  have hS : charCount S = opsBaseLen A.ops := by rw [← hcbA, ← hlen]
  have hCompose : A.Compose B = some (addAll NewOperationSeq c) := by
    rw [OperationSeq.Compose, if_neg (by omega), composeGoLoop_eq, hc]
    rfl
  refine ⟨addAll NewOperationSeq c, applyOps A.ops S, applyOps B.ops (applyOps A.ops S),
    hCompose, Apply_eq_some hlen.symm, ?_, ?_⟩
  · have hlSA : charCount (applyOps A.ops S) = B.baseLen := by
      rw [hcbB, ← hlsum]
      exact applyOps_length A.ops S hS
    rw [Apply_eq_some hlSA]
  · have hlC : charCount S = (addAll NewOperationSeq c).baseLen := by
      rw [(coherent_addAll_new c).1, hcb, hS]
    rw [Apply_eq_some hlC, addAll_new_applyOps, hsem S hS]

/-- C3 — Invert round-trip: for every built sequence `A` and text `S` with
`A.baseLen = charCount S`, applying `Invert(A, S)` to the result of applying
`A` to `S` recovers `S`, and `Invert(A, S)` swaps the two lengths. -/
theorem invert_round_trip (A : OperationSeq) (S : List Char)
    (hA : Built A) (hlen : A.baseLen = charCount S) :
    (∃ SA, A.Apply S = some SA ∧ (A.Invert S).Apply SA = some S) ∧
    (A.Invert S).baseLen = A.targetLen ∧
    (A.Invert S).targetLen = A.baseLen := by
  obtain ⟨hcbA, hctA⟩ := built_coherent hA
  have hS : S.length = opsBaseLen A.ops := by
    rw [← hcbA]
    exact hlen.symm
  have hInv : A.Invert S = addAll NewOperationSeq (invertOps A.ops S) := by
    rw [OperationSeq.Invert, invertGo_eq]
  refine ⟨⟨applyOps A.ops S, Apply_eq_some hlen.symm, ?_⟩, ?_, ?_⟩
  · have hlSA : charCount (applyOps A.ops S) = (A.Invert S).baseLen := by
      rw [hInv, (coherent_addAll_new _).1, invertOps_baseLen]
      exact applyOps_length A.ops S hS
    rw [Apply_eq_some hlSA, hInv, addAll_new_applyOps,
      invertOps_applyOps A.ops S hS]
  · rw [hInv, (coherent_addAll_new _).1, invertOps_baseLen, hctA]
  · rw [hInv, (coherent_addAll_new _).2, invertOps_targetLen A.ops S hS, hcbA]

/-- C4 — Transform Insert-vs-Insert tie-break: when both current operations
are inserts, a lexicographically smaller `A` text makes `A'` receive the
insert and `B'` a retain of its length with only `A` advancing; equal texts
make both sides receive their insert followed by a retain and both advance;
otherwise the roles are swapped. -/
theorem transform_insert_tie_break (s1 s2 : List Char)
    (t1 t2 : List Operation) (aPrime bPrime : OperationSeq) :
    (lexLt s1 s2 = true →
      transformGoLoop (Operation.Insert s1 :: t1) (Operation.Insert s2 :: t2)
          aPrime bPrime =
        transformGoLoop t1 (Operation.Insert s2 :: t2)
          (aPrime.Insert s1) (bPrime.Retain (charCount s1))) ∧
    (s1 = s2 →
      transformGoLoop (Operation.Insert s1 :: t1) (Operation.Insert s2 :: t2)
          aPrime bPrime =
        transformGoLoop t1 t2
          ((aPrime.Insert s1).Retain (charCount s1))
          ((bPrime.Insert s2).Retain (charCount s2))) ∧
    (lexLt s1 s2 = false → s1 ≠ s2 →
      transformGoLoop (Operation.Insert s1 :: t1) (Operation.Insert s2 :: t2)
          aPrime bPrime =
        transformGoLoop (Operation.Insert s1 :: t1) t2
          (aPrime.Retain (charCount s2)) (bPrime.Insert s2)) := by
  refine ⟨?_, ?_, ?_⟩
  · intro h
    simp [transformGoLoop, h]
  · intro h
    subst h
    simp [transformGoLoop, lexLt_irrefl s1]
  · intro h h'
    simp [transformGoLoop, h, h']

/-- C5 — Wire round-trip: for every sequence built through the normalizing
construction methods, decoding the encoding (`UnmarshalJSON` of
`MarshalJSON`) yields a sequence with the same operation list. -/
theorem wire_round_trip (o : OperationSeq) (h : Built o) :
    (UnmarshalJSON o.MarshalJSON).ops = o.ops := by
  rw [unmarshal_marshal h]

/-- C6 — Canonical-form invariant: after any finite sequence of builder calls
starting from `NewOperationSeq()`, the list holds no zero-count
`Retain`/`Delete`, no empty `Insert` (`opOK`), and no forbidden adjacency:
never two operations of the same variant and never an `Insert` immediately
after a `Delete` (`pairOK` along the list). -/
theorem canonical_form_invariant (o : OperationSeq) (h : Built o) :
    (∀ op ∈ o.ops, opOK op = true) ∧
    List.Chain' (fun a b => pairOK a b = true) o.ops :=
  ⟨built_opsWF h, built_chain h⟩

/-- C7 — Apply raises iff and atomicity: `Apply` returns the
length-mismatch error exactly when the codepoint count of `s` differs from
`baseLen`, and in that case it returns the empty string, never a partial
output. -/
theorem apply_error_iff (o : OperationSeq) (s : List Char) :
    ((o.applyPair s).2 = some OTError.incompatibleLengths ↔
      charCount s ≠ o.baseLen) ∧
    (charCount s ≠ o.baseLen → (o.applyPair s).1 = []) := by
  constructor
  · constructor
    · intro h
      by_cases hc : charCount s ≠ o.baseLen
      · exact hc
      · rw [OperationSeq.applyPair, if_neg hc] at h
        cases h
    · intro hc
      rw [OperationSeq.applyPair, if_pos hc]
  · intro hc
    rw [OperationSeq.applyPair, if_pos hc]

/-- C8 — Defensive error branches are unreachable: for built sequences, if
the compose precondition `A.targetLen = B.baseLen` holds then `Compose`
succeeds, and if the transform precondition `A.baseLen = B.baseLen` holds
then `Transform` succeeds — the internal cursor-exhaustion length-mismatch
errors never fire. -/
theorem defensive_errors_unreachable (A B : OperationSeq)
    (hA : Built A) (hB : Built B) :
    (A.targetLen = B.baseLen → ∃ C, A.Compose B = some C) ∧
    (A.baseLen = B.baseLen → ∃ P, A.Transform B = some P) := by
  obtain ⟨hcbA, hctA⟩ := built_coherent hA
  obtain ⟨hcbB, hctB⟩ := built_coherent hB
  constructor
  · intro hcomp
    obtain ⟨c, hc⟩ := composeOps_success A.ops B.ops
      (built_opsWF hA) (built_opsWF hB) (by rw [← hctA, ← hcbB, hcomp])
    refine ⟨addAll NewOperationSeq c, ?_⟩
    rw [OperationSeq.Compose, if_neg (by omega), composeGoLoop_eq, hc]
    rfl
  · intro hbase
    have hs := transformOps_success A.ops B.ops
      (built_opsWF hA) (built_opsWF hB) (by rw [← hcbA, ← hcbB, hbase])
    rw [Option.isSome_iff_exists] at hs
    obtain ⟨⟨t1, t2⟩, hp⟩ := hs
    refine ⟨(addAll NewOperationSeq t1, addAll NewOperationSeq t2), ?_⟩
    rw [OperationSeq.Transform, if_neg (by omega), transformGoLoop_eq, hp]
    rfl

/-- C10 — Transform output length relations: for built sequences with equal
base lengths, a successful `Transform(A, B) = (A', B')` satisfies
`A'.baseLen = B.targetLen`, `B'.baseLen = A.targetLen`, and
`A'.targetLen = B'.targetLen`. -/
theorem transform_length_relations (A B : OperationSeq)
    (A' B' : OperationSeq) (hA : Built A) (hB : Built B)
    (_hbase : A.baseLen = B.baseLen)
    (hT : A.Transform B = some (A', B')) :
    A'.baseLen = B.targetLen ∧ B'.baseLen = A.targetLen ∧
      A'.targetLen = B'.targetLen := by
  obtain ⟨t1, t2, hOps, hA', hB'⟩ := Transform_eq hT
  obtain ⟨hcbA, hctA⟩ := built_coherent hA
  obtain ⟨hcbB, hctB⟩ := built_coherent hB
  obtain ⟨hl1, hl2, hl3, _⟩ := transformOps_spec A.ops B.ops (t1, t2) hOps
  simp only at hl1 hl2 hl3
  refine ⟨?_, ?_, ?_⟩
  · rw [hA', (coherent_addAll_new t1).1, hl1, hctB]
  · rw [hB', (coherent_addAll_new t2).1, hl2, hctA]
  · rw [hA', hB', (coherent_addAll_new t1).2, (coherent_addAll_new t2).2, hl3]

/-! ## Witnesses -/

theorem transform_convergence_TP1_witness :
    ∃ SA SB T : List Char,
      (NewOperationSeq.Retain 1).Apply ['a'] = some SA ∧
      (NewOperationSeq.Retain 1).Apply ['a'] = some SB ∧
      (NewOperationSeq.Retain 1).Apply SA = some T ∧
      (NewOperationSeq.Retain 1).Apply SB = some T :=
  transform_convergence_TP1 (NewOperationSeq.Retain 1) (NewOperationSeq.Retain 1)
    ['a'] (NewOperationSeq.Retain 1) (NewOperationSeq.Retain 1)
    (Built.retain _ 1 Built.empty) (Built.retain _ 1 Built.empty)
    (by decide) (by decide)
    (by simp [OperationSeq.Transform, transformGoLoop, NewOperationSeq,
      OperationSeq.Retain, retainMerge])

theorem compose_correctness_witness :
    ∃ C SA SB,
      (NewOperationSeq.Insert ['a']).Compose ((NewOperationSeq.Retain 1).Insert ['b'])
        = some C ∧
      (NewOperationSeq.Insert ['a']).Apply [] = some SA ∧
      ((NewOperationSeq.Retain 1).Insert ['b']).Apply SA = some SB ∧
      C.Apply [] = some SB :=
  compose_correctness (NewOperationSeq.Insert ['a'])
    ((NewOperationSeq.Retain 1).Insert ['b']) []
    (Built.insert _ _ Built.empty)
    (Built.insert _ _ (Built.retain _ 1 Built.empty))
    (by decide) (by decide)

theorem invert_round_trip_witness :
    (∃ SA, (NewOperationSeq.Retain 1).Apply ['a'] = some SA ∧
      ((NewOperationSeq.Retain 1).Invert ['a']).Apply SA = some ['a']) ∧
    ((NewOperationSeq.Retain 1).Invert ['a']).baseLen
      = (NewOperationSeq.Retain 1).targetLen ∧
    ((NewOperationSeq.Retain 1).Invert ['a']).targetLen
      = (NewOperationSeq.Retain 1).baseLen :=
  invert_round_trip (NewOperationSeq.Retain 1) ['a']
    (Built.retain _ 1 Built.empty) (by decide)

theorem transform_insert_tie_break_witness :
    (transformGoLoop [Operation.Insert ['a']] [Operation.Insert ['b']]
        NewOperationSeq NewOperationSeq =
      transformGoLoop [] [Operation.Insert ['b']]
        (NewOperationSeq.Insert ['a'])
        (NewOperationSeq.Retain (charCount ['a']))) ∧
    (transformGoLoop [Operation.Insert ['a']] [Operation.Insert ['a']]
        NewOperationSeq NewOperationSeq =
      transformGoLoop [] []
        ((NewOperationSeq.Insert ['a']).Retain (charCount ['a']))
        ((NewOperationSeq.Insert ['a']).Retain (charCount ['a']))) ∧
    (transformGoLoop [Operation.Insert ['b']] [Operation.Insert ['a']]
        NewOperationSeq NewOperationSeq =
      transformGoLoop [Operation.Insert ['b']] []
        (NewOperationSeq.Retain (charCount ['a']))
        (NewOperationSeq.Insert ['a'])) :=
  ⟨(transform_insert_tie_break ['a'] ['b'] [] [] NewOperationSeq NewOperationSeq).1
      (by decide),
   (transform_insert_tie_break ['a'] ['a'] [] [] NewOperationSeq NewOperationSeq).2.1
      rfl,
   (transform_insert_tie_break ['b'] ['a'] [] [] NewOperationSeq NewOperationSeq).2.2
      (by decide) (by decide)⟩

theorem wire_round_trip_witness :
    (UnmarshalJSON (NewOperationSeq.Insert ['a']).MarshalJSON).ops
      = (NewOperationSeq.Insert ['a']).ops :=
  wire_round_trip (NewOperationSeq.Insert ['a']) (Built.insert _ _ Built.empty)

theorem canonical_form_invariant_witness :
    (∀ op ∈ ((NewOperationSeq.Retain 1).Insert ['a']).ops, opOK op = true) ∧
    List.Chain' (fun a b => pairOK a b = true)
      ((NewOperationSeq.Retain 1).Insert ['a']).ops :=
  canonical_form_invariant ((NewOperationSeq.Retain 1).Insert ['a'])
    (Built.insert _ _ (Built.retain _ 1 Built.empty))

theorem apply_error_iff_witness :
    (NewOperationSeq.applyPair ['a']).2 = some OTError.incompatibleLengths ∧
    (NewOperationSeq.applyPair ['a']).1 = [] :=
  ⟨(apply_error_iff NewOperationSeq ['a']).1.mpr (by decide),
   (apply_error_iff NewOperationSeq ['a']).2 (by decide)⟩

theorem defensive_errors_unreachable_witness :
    (∃ C, (NewOperationSeq.Retain 1).Compose (NewOperationSeq.Retain 1) = some C) ∧
    (∃ P, (NewOperationSeq.Retain 1).Transform (NewOperationSeq.Retain 1) = some P) :=
  ⟨(defensive_errors_unreachable (NewOperationSeq.Retain 1) (NewOperationSeq.Retain 1)
      (Built.retain _ 1 Built.empty) (Built.retain _ 1 Built.empty)).1 (by decide),
   (defensive_errors_unreachable (NewOperationSeq.Retain 1) (NewOperationSeq.Retain 1)
      (Built.retain _ 1 Built.empty) (Built.retain _ 1 Built.empty)).2 (by decide)⟩

theorem transform_length_relations_witness :
    (NewOperationSeq.Retain 1).baseLen = (NewOperationSeq.Retain 1).targetLen ∧
    (NewOperationSeq.Retain 1).baseLen = (NewOperationSeq.Retain 1).targetLen ∧
    (NewOperationSeq.Retain 1).targetLen = (NewOperationSeq.Retain 1).targetLen :=
  transform_length_relations (NewOperationSeq.Retain 1) (NewOperationSeq.Retain 1)
    (NewOperationSeq.Retain 1) (NewOperationSeq.Retain 1)
    (Built.retain _ 1 Built.empty) (Built.retain _ 1 Built.empty)
    (by decide)
    (by simp [OperationSeq.Transform, transformGoLoop, NewOperationSeq,
      OperationSeq.Retain, retainMerge])

end OT
